import Mathlib

/-!
Shallow embedding of the spatial-hashing nearest-neighbor program
(src/src/main.rs).

Verification development for the uniform-grid nearest-neighbor search.

Modelling conventions, chosen once for the whole file:

* Rust `f32` arithmetic is idealized as exact rational arithmetic (`ℚ`);
  floating-point rounding is not modelled.  All positions, cell sizes and
  squared distances are rationals.
* `Vec2::distance` returns the Euclidean distance (a square root).  The
  program only uses distances in two ways: (1) comparisons inside `min_by`
  (monotone in the square, so the model compares squared distances), and
  (2) the radius `r` in the verification-pass bounding box, where the code
  computes `floor((pos ± r) / cell_size)`.  For (2) the model computes the
  exact integer floor of `(a ± √q)/c` for rational `a q c` with computable
  comparisons against the square root; the bridge lemmas
  `floorSubSqrtDiv_eq` / `floorAddSqrtDiv_eq` prove these helpers equal to
  the real-number floors.
* Rust `u64` values are `ℕ`.  `saturating_sub` is truncated `ℕ`
  subtraction.  A float-to-`u64` `as` cast truncates toward zero and
  saturates at 0, which equals `(Int.floor ·).toNat` on every rational.
* `Instant` keys are opaque; they are modelled as `ℕ` inputs (the spawn
  list supplies one key per spawned object, standing for `Instant::now()`).
* `HashMap` iteration order is unspecified in Rust; buckets are modelled
  as association lists whose order stands for the incidental iteration
  order.  Order-sensitivity of the search is analyzed explicitly.
* The source's `loop { .. }` in `find_closest` has no bound; it is
  modelled by a fuel parameter.  `ring_loop fuel .. = none` means the fuel
  was exhausted; divergence of the Rust loop is expressed as
  `∀ fuel, ring_loop fuel .. = none`.  The top-level `find_closest` uses
  fuel `rows + cols + 1`, which is proven sufficient whenever the loop
  can exit at all.
* Out-of-range indexing panics in Rust; the model's `bucketAt` returns
  `[]` out of range and `gridInsert` is a no-op out of range.  All claims
  are settled at states where the accessed indices are proven in range.
-/

namespace SpatialHashing

/-- A stored object: position (x, y) and an opaque color payload
(`struct Object { pos: Vec2, color: Color }`); the color is carried but
never inspected by the search (modelled as `ℕ`). -/
structure Obj where
  pos : ℚ × ℚ
  color : ℕ
deriving DecidableEq, Repr

/-- `Vec<Vec<HashMap<Instant, Object>>>` : rows of columns of buckets;
the bucket association list order models `HashMap` iteration order. -/
abbrev Grid := List (List (List (ℕ × Obj)))

/-- `const SCREEN_WIDTH: f32 = 1920.0`. -/
def SCREEN_WIDTH : ℚ := 1920

/-- `const SCREEN_HEIGHT: f32 = 1080.0`. -/
def SCREEN_HEIGHT : ℚ := 1080

/-- `const CELLS_ROWS: u64 = 85` (the source's fixed row count; the
development is parametric in the row count, with this value used to
instantiate the program's own configuration). -/
def CELLS_ROWS : ℕ := 85

/-- `const N: u64 = 1000` (number of spawned objects). -/
def N : ℕ := 1000

/-- Rust `f32::round`: round half away from zero. -/
def roundHalfAway (q : ℚ) : ℤ :=
  if q < 0 then -⌊-q + 1/2⌋ else ⌊q + 1/2⌋

/-- Grid configuration. The source fixes `rows = CELLS_ROWS = 85`; the
row count is the one tunable (claim C8 compares two row counts), so it is
the single field, with the column count and cell sizes derived exactly as
the source derives them. -/
structure Cfg where
  rows : ℕ
deriving DecidableEq, Repr

/-- `CELLS_COLUMNS = (CELLS_ROWS as f32 * (SCREEN_WIDTH / SCREEN_HEIGHT)).round() as u64`. -/
def Cfg.cols (c : Cfg) : ℕ :=
  (roundHalfAway ((c.rows : ℚ) * (SCREEN_WIDTH / SCREEN_HEIGHT))).toNat

/-- `CELL_HEIGHT = SCREEN_HEIGHT / CELLS_ROWS as f32`. -/
def Cfg.cellH (c : Cfg) : ℚ := SCREEN_HEIGHT / (c.rows : ℚ)

/-- `CELL_WIDTH = SCREEN_WIDTH / *CELLS_COLUMNS as f32`. -/
def Cfg.cellW (c : Cfg) : ℚ := SCREEN_WIDTH / (c.cols : ℚ)

/-- The program's own configuration (`rows = 85`). -/
def cfg85 : Cfg := ⟨CELLS_ROWS⟩

/-- Rust float-to-`u64` `as` cast: truncate toward zero, saturating at 0
from below.  On every rational this equals `toNat` of the floor
(truncation toward zero agrees with the floor on nonnegatives, and every
negative saturates to 0). -/
def u64cast (q : ℚ) : ℕ := (⌊q⌋ : ℤ).toNat

/-- `fn cell_by_pos(pos: Vec2) -> (u64, u64)`:
`((pos.x / *CELL_WIDTH) as u64, (pos.y / CELL_HEIGHT) as u64)` —
note: no clamping is performed by the source. -/
def cell_by_pos (cfg : Cfg) (p : ℚ × ℚ) : ℕ × ℕ :=
  (u64cast (p.1 / cfg.cellW), u64cast (p.2 / cfg.cellH))

/-- Modelled from the spec (§3 invariant, claim C7): the bucket
coordinate the spec asserts, i.e. the integer-divided position with each
coordinate clamped into valid range.  Used only to compare the source's
`cell_by_pos` against the spec's words. -/
def clampedCell (cfg : Cfg) (p : ℚ × ℚ) : ℕ × ℕ :=
  (min (u64cast (p.1 / cfg.cellW)) (cfg.cols - 1),
   min (u64cast (p.2 / cfg.cellH)) (cfg.rows - 1))

/-- Squared Euclidean distance; `Vec2::distance` is its square root, and
every comparison of distances in the source is equivalent to the same
comparison of squared distances (`Real.sqrt` is monotone). -/
def dist2 (p q : ℚ × ℚ) : ℚ :=
  (p.1 - q.1) * (p.1 - q.1) + (p.2 - q.2) * (p.2 - q.2)

/-- Bucket read `objects[y][x]`; out of range the Rust code would panic,
the model returns `[]`. -/
def bucketAt (g : Grid) (y x : ℕ) : List (ℕ × Obj) :=
  (g.getD y []).getD x []

/-- Inclusive integer range `a..=b` (empty when `b < a`). -/
def rangeIncl (a b : ℕ) : List ℕ :=
  (List.range (b + 1 - a)).map (a + ·)

/-- `RangeInclusive::contains`: membership in `a..=b`. -/
def memRange (a b x : ℕ) : Prop := a ≤ x ∧ x ≤ b

instance (a b x : ℕ) : Decidable (memRange a b x) := by
  unfold memRange; infer_instance

/-- One iteration body of the expanding-ring loop of
`Object::find_closest` at a given `layer`: the four side scans
(top row, bottom row, left column, right column), in source order,
producing the objects pushed onto `visible_objects` by that iteration.
Only the top scan filters out the queried id, exactly as in the source
(the other three scans use `.values()` with no filter). -/
def scan_layer (cfg : Cfg) (cell : ℕ × ℕ) (id : ℕ) (g : Grid) (layer : ℕ) :
    List Obj :=
  let cx := cell.1
  let cy := cell.2
  (if layer ≤ cy then
      (rangeIncl (cx - layer) (min (cx + layer) (cfg.cols - 1))).flatMap
        (fun x => ((bucketAt g (cy - layer) x).filter
          (fun e => e.1 ≠ id)).map (fun e => e.2))
    else []) ++
  (if 0 < layer ∧ cy + layer ≤ cfg.rows - 1 then
      (rangeIncl (cx - layer) (min (cx + layer) (cfg.cols - 1))).flatMap
        (fun x => (bucketAt g (cy + layer) x).map (fun e => e.2))
    else []) ++
  (if 0 < layer ∧ layer ≤ cx then
      (rangeIncl (cy - (layer - 1)) (min (cy + (layer - 1)) (cfg.rows - 1))).flatMap
        (fun y => (bucketAt g y (cx - layer)).map (fun e => e.2))
    else []) ++
  (if 0 < layer ∧ cx + layer ≤ cfg.cols - 1 then
      (rangeIncl (cy - (layer - 1)) (min (cy + (layer - 1)) (cfg.rows - 1))).flatMap
        (fun y => (bucketAt g y (cx + layer)).map (fun e => e.2))
    else [])

/-- The source's unbounded `loop { .. scan .. if !empty { break } layer += 1 }`,
modelled with explicit fuel.  `some (layer, acc)` is a `break` at that
layer with the accumulated `visible_objects`; `none` means the fuel ran
out (the Rust loop is still running). -/
def ring_loop (cfg : Cfg) (cell : ℕ × ℕ) (id : ℕ) (g : Grid) :
    ℕ → ℕ → List Obj → Option (ℕ × List Obj)
  | 0, _, _ => none
  | fuel + 1, layer, acc =>
    let acc' := acc ++ scan_layer cfg cell id g layer
    if acc' = [] then ring_loop cfg cell id g fuel (layer + 1) acc'
    else some (layer, acc')

/-- Rust `Iterator::min_by` with the distance comparator: the fold keeps
the accumulator unless the new element is strictly smaller, so the first
of several equal minima wins.  Distances are compared via squares. -/
def min_by_dist (p : ℚ × ℚ) : List Obj → Option Obj
  | [] => none
  | a :: l =>
    some (l.foldl (fun acc x => if dist2 p x.pos < dist2 p acc.pos then x else acc) a)

/-- `a ≤ √q` as a computable test (`q ≥ 0` intended):
holds iff `a ≤ 0` or `a·a ≤ q`. -/
def ratLeSqrtB (a q : ℚ) : Bool := decide (a ≤ 0) || decide (a * a ≤ q)

/-- `√q ≤ b` as a computable test (`q ≥ 0` intended):
holds iff `0 ≤ b` and `q ≤ b·b`. -/
def sqrtLeRatB (q b : ℚ) : Bool := decide (0 ≤ b) && decide (q ≤ b * b)

/-- One Babylonian iteration for an upper bound on `√q`: starting from
`(q+1)/2 ≥ √q`, each step `s ↦ (q/s + s)/2` stays above `√q` (AM–GM)
while converging to it.  Structural recursion, so it evaluates by
kernel reduction. -/
def babylon (q : ℚ) : ℕ → ℚ
  | 0 => (q + 1) / 2
  | n + 1 => (q / babylon q n + babylon q n) / 2

/-- A cheap rational upper bound on `√q` (twelve Babylonian steps).
Used only to bracket the counting in the two floor helpers below;
`sqrt_le_sqrtUB` proves the bound. -/
def sqrtUB (q : ℚ) : ℚ := babylon q 12

/-- Exact `⌊(a − √q)/c⌋` (for `0 ≤ q`, `0 < c`), computed by counting,
inside the a-priori bracket `[⌊(a − sqrtUB q)/c⌋, ⌊a/c⌋]`, the integers
`k` with `k·c ≤ a − √q`.  `floorSubSqrtDiv_eq` proves it equal to the
real floor.  Models `(self.pos − r) / CELL_SIZE` with `q = r²`. -/
def floorSubSqrtDiv (a q c : ℚ) : ℤ :=
  let lo : ℤ := ⌊(a - sqrtUB q) / c⌋
  let hi : ℤ := ⌊a / c⌋
  lo + ((List.range (hi - lo).toNat).countP
    (fun (j : ℕ) => sqrtLeRatB q (a - ((lo + 1 + (j : ℤ)) : ℤ) * c)))

/-- Exact `⌊(a + √q)/c⌋` (for `0 ≤ q`, `0 < c`), computed like
`floorSubSqrtDiv` inside the bracket `[⌊a/c⌋, ⌊(a + sqrtUB q)/c⌋]`.
Models `(self.pos + r) / CELL_SIZE` with `q = r²`. -/
def floorAddSqrtDiv (a q c : ℚ) : ℤ :=
  let lo : ℤ := ⌊a / c⌋
  let hi : ℤ := ⌊(a + sqrtUB q) / c⌋
  lo + ((List.range (hi - lo).toNat).countP
    (fun (j : ℕ) => ratLeSqrtB (((lo + 1 + (j : ℤ)) : ℤ) * c - a) q))

/-- The verification-pass bounding box `(min_x, max_x, min_y, max_y)` of
the disc of radius `r = √q` around `p`:

* `min_x = ((pos.x - r) / CELL_WIDTH).max(0.0) as u64`
  (saturating cast, i.e. `toNat` of the floor),
* `max_x = (((pos.x + r) / CELL_WIDTH) as u64).min(CELLS_COLUMNS - 1)`,

and likewise for `y` with `CELL_HEIGHT` / `CELLS_ROWS`. -/
def bbox (cfg : Cfg) (p : ℚ × ℚ) (q : ℚ) : ℕ × ℕ × ℕ × ℕ :=
  ((floorSubSqrtDiv p.1 q cfg.cellW).toNat,
   min (floorAddSqrtDiv p.1 q cfg.cellW).toNat (cfg.cols - 1),
   (floorSubSqrtDiv p.2 q cfg.cellH).toNat,
   min (floorAddSqrtDiv p.2 q cfg.cellH).toNat (cfg.rows - 1))

/-- The verification pass's rescan (lines 120–134): over every cell of
the bounding box, a cell's objects are pushed onto `visible_objects_new`
only when its `x` is NOT in the ring window's column range AND its `y` is
NOT in the ring window's row range — the source's exact condition
(`!xrange.contains(&x) && !yrange.contains(&y)`).  `bb` is
`(min_x, max_x, min_y, max_y)`. -/
def verify_adds (cfg : Cfg) (cell : ℕ × ℕ) (layer : ℕ) (g : Grid)
    (bb : ℕ × ℕ × ℕ × ℕ) : List Obj :=
  (rangeIncl bb.2.2.1 bb.2.2.2).flatMap fun y =>
    (rangeIncl bb.1 bb.2.1).flatMap fun x =>
      if ¬ memRange (cell.1 - layer) (min (cell.1 + layer) (cfg.cols - 1)) x
          ∧ ¬ memRange (cell.2 - layer) (min (cell.2 + layer) (cfg.rows - 1)) y
      then (bucketAt g y x).map (fun e => e.2)
      else []

/-- Fuel given to the ring loop: one more than `rows + cols`, enough to
reach any layer at which a scan can still contribute (proven sufficient
whenever some other object exists). -/
def ringFuel (cfg : Cfg) : ℕ := cfg.rows + cfg.cols + 1

/-- `Object::find_closest(&self, id, objects)`.  Returns `none` exactly
when the model's fuel runs out, i.e. when the source's unbounded ring
loop does not exit (the Rust function returns `&Object` and cannot
return an empty result; its only non-returning behavior is divergence).
Otherwise: provisional nearest from the first non-empty ring layer
(`min_by`), radius-squared `r²`, bounding-box rescan, final `min_by`
over the provisional nearest followed by the rescanned objects. -/
def find_closest (cfg : Cfg) (id : ℕ) (p : ℚ × ℚ) (g : Grid) : Option Obj :=
  let cell := cell_by_pos cfg p
  match ring_loop cfg cell id g (ringFuel cfg) 0 [] with
  | none => none
  | some (layer, cands) =>
    match min_by_dist p cands with
    | none => none
    | some q0 =>
      min_by_dist p (q0 :: verify_adds cfg cell layer g (bbox cfg p (dist2 p q0.pos)))

/-- `HashMap::insert` on an association-list bucket: replace the entry at
an existing key, else append. -/
def insertKV (l : List (ℕ × Obj)) (k : ℕ) (o : Obj) : List (ℕ × Obj) :=
  if l.any (fun e => e.1 = k) then
    l.map (fun e => if e.1 = k then (k, o) else e)
  else l ++ [(k, o)]

/-- `objects[cell_y][cell_x].insert(key, obj)`; out-of-range indices
leave the grid unchanged (the Rust code would panic there). -/
def gridInsert (g : Grid) (y x : ℕ) (k : ℕ) (o : Obj) : Grid :=
  g.set y ((g.getD y []).set x (insertKV (bucketAt g y x) k o))

/-- One spawned object: the `Instant::now()` key, the random position,
the random color. -/
structure Spawn where
  key : ℕ
  pos : ℚ × ℚ
  color : ℕ
deriving DecidableEq, Repr

/-- `fn spawn_objects`: for each generated object, compute
`cell_by_pos(pos)` and insert `(key ↦ Object { pos, color })` into that
bucket.  The random positions/colors and the `Instant::now()` keys are
supplied as the input list (`N` iterations ⟺ a length-`N` list). -/
def spawn_objects (cfg : Cfg) (g : Grid) (spawns : List Spawn) : Grid :=
  spawns.foldl
    (fun g s =>
      gridInsert g (cell_by_pos cfg s.pos).2 (cell_by_pos cfg s.pos).1 s.key
        ⟨s.pos, s.color⟩)
    g

/-- `fn reset_objects`: clear every bucket. -/
def reset_objects (g : Grid) : Grid :=
  g.map (fun row => row.map (fun _ => ([] : List (ℕ × Obj))))

/-- The grid as first allocated in `main`:
`vec![vec![HashMap::new(); CELLS_COLUMNS]; CELLS_ROWS]`. -/
def emptyGrid (cfg : Cfg) : Grid :=
  List.replicate cfg.rows (List.replicate cfg.cols [])

/-- Total number of stored objects (sum of bucket sizes). -/
def totalCount (g : Grid) : ℕ :=
  (g.map (fun row => (row.map List.length).sum)).sum

/-- The ring window at a given layer covers the whole grid: its clamped
column range is `[0, cols−1]` and its clamped row range is `[0, rows−1]`. -/
def coversGrid (cfg : Cfg) (cell : ℕ × ℕ) (layer : ℕ) : Prop :=
  cell.1 ≤ layer ∧ cfg.cols - 1 ≤ cell.1 + layer ∧
  cell.2 ≤ layer ∧ cfg.rows - 1 ≤ cell.2 + layer

instance (cfg : Cfg) (cell : ℕ × ℕ) (layer : ℕ) :
    Decidable (coversGrid cfg cell layer) := by
  unfold coversGrid; infer_instance

/-- The candidates accumulated by the ring loop through layer `L`
(the contents of `visible_objects` after the iteration at layer `L`):
the concatenation of the scans of layers `0, …, L`. -/
def accumLayers (cfg : Cfg) (cell : ℕ × ℕ) (id : ℕ) (g : Grid) (L : ℕ) :
    List Obj :=
  (List.range (L + 1)).flatMap (scan_layer cfg cell id g)

/-- Chebyshev distance between two cells: the first ring layer whose
scan reaches the second cell from the first. -/
def chebDist (a b : ℕ × ℕ) : ℕ :=
  max (max (a.1 - b.1) (b.1 - a.1)) (max (a.2 - b.2) (b.2 - a.2))

/-- Structural well-formedness of a grid value: `rows` rows of `cols`
buckets, as allocated in `main`. -/
def WF (cfg : Cfg) (g : Grid) : Prop :=
  g.length = cfg.rows ∧ ∀ row ∈ g, row.length = cfg.cols

instance (cfg : Cfg) (g : Grid) : Decidable (WF cfg g) := by
  unfold WF; infer_instance

/-- Every entry of the grid sits in the bucket the position-to-cell map
assigns to its object's position. -/
def Placed (cfg : Cfg) (g : Grid) : Prop :=
  ∀ y x k o, (k, o) ∈ bucketAt g y x → (x, y) = cell_by_pos cfg o.pos

/-- A position inside the half-open world rectangle `[0, W) × [0, H)` —
exactly the range of `rng.gen_range(0.0..SCREEN_WIDTH)` /
`rng.gen_range(0.0..SCREEN_HEIGHT)` used by `spawn_objects`. -/
def inWorld (p : ℚ × ℚ) : Prop :=
  0 ≤ p.1 ∧ p.1 < SCREEN_WIDTH ∧ 0 ≤ p.2 ∧ p.2 < SCREEN_HEIGHT

instance (p : ℚ × ℚ) : Decidable (inWorld p) := by
  unfold inWorld; infer_instance

/-- A key occurs in a bucket (`HashMap::contains_key`). -/
def keyIn (l : List (ℕ × Obj)) (k : ℕ) : Prop := ∃ e ∈ l, e.1 = k

instance (l : List (ℕ × Obj)) (k : ℕ) : Decidable (keyIn l k) := by
  unfold keyIn; infer_instance

/-- Lookup of a key in a bucket (`HashMap::get`). -/
def lookupKV (l : List (ℕ × Obj)) (k : ℕ) : Option Obj :=
  (l.find? (fun e => e.1 = k)).map (fun e => e.2)

/-- A spawn's key does not yet occur in the bucket its position maps to:
its `HashMap::insert` genuinely adds an entry instead of replacing one. -/
def freshAt (cfg : Cfg) (g : Grid) (s : Spawn) : Prop :=
  ¬ keyIn (bucketAt g (cell_by_pos cfg s.pos).2 (cell_by_pos cfg s.pos).1) s.key

/-- Two spawns that land in the same bucket carry distinct keys. -/
def sameCellDistinctKeys (cfg : Cfg) (a b : Spawn) : Prop :=
  cell_by_pos cfg a.pos = cell_by_pos cfg b.pos → a.key ≠ b.key

/-- A small configuration (9 rows, hence 16 columns of exactly
120 × 120 cells) used as the grid of the concrete refuting stores; the
spec treats the row count as configuration (§6), and the concrete stores
below exercise the same code paths as the 85-row default. -/
def cfg9 : Cfg := ⟨9⟩

/-- Configuration with 5 rows (9 columns), the smaller of the two row
counts named by the determinism claim. -/
def cfgRows5 : Cfg := ⟨5⟩

/-- Query point of the refuting store for the nearest-neighbor claim:
the center of cell (4,4) of the 9-row grid. -/
def pA : ℚ × ℚ := (540, 540)

/-- Decoy point: in cell (5,5), diagonally adjacent to (4,4), far into
its corner, so it is the only candidate the ring expansion finds. -/
def qA : ℚ × ℚ := (708, 708)

/-- True nearest point: straight above the query in cell (4,2) — inside
the verification disc, outside the scanned window in `y` only, so the
verification pass never rescans its cell. -/
def rA : ℚ × ℚ := (540, 348)

/-- The refuting store for the nearest-neighbor claim: the three points
above, spawned into the empty 9-row grid. -/
def gA : Grid :=
  spawn_objects cfg9 (emptyGrid cfg9) [⟨1, pA, 7⟩, ⟨2, qA, 8⟩, ⟨3, rA, 9⟩]

/-- Query point of the refuting store for the verification-pass claim:
center of cell (6,6) of the 9-row grid. -/
def pB : ℚ × ℚ := (780, 780)

/-- Decoy for the verification-pass claim, in cell (7,7). -/
def qB : ℚ × ℚ := (948, 948)

/-- Missed point for the verification-pass claim, in cell (6,4): inside
the bounding box, its column inside the window, its row outside. -/
def rB : ℚ × ℚ := (780, 588)

/-- The refuting store for the verification-pass claim. -/
def gB : Grid :=
  spawn_objects cfg9 (emptyGrid cfg9) [⟨1, pB, 4⟩, ⟨2, qB, 5⟩, ⟨3, rB, 6⟩]

/-- Point set shared by the two grids of the determinism refutation
(query in cell (1,1) of the 9-row grid, decoy in (2,2), true nearest in
(1,3); on the 5-row grid the true nearest is found instead). -/
def spawnsC : List Spawn := [⟨1, (180, 180), 1⟩, ⟨2, (348, 348), 2⟩, ⟨3, (180, 372), 3⟩]

/-- The shared point set spawned on the 9-row grid. -/
def gC9 : Grid := spawn_objects cfg9 (emptyGrid cfg9) spawnsC

/-- The shared point set spawned on the 5-row grid. -/
def gC5 : Grid := spawn_objects cfgRows5 (emptyGrid cfgRows5) spawnsC

/-- Two-point store (both points in cell (3,2) of the 9-row grid) for
the stopping-rule refutation. -/
def gD : Grid :=
  spawn_objects cfg9 (emptyGrid cfg9) [⟨1, (420, 300), 1⟩, ⟨2, (384, 264), 2⟩]

/-- Position of the single point of the one-point store (cell (7,7) of
the source's own 85-row configuration). -/
def pE : ℚ × ℚ := (15/2 * cfg85.cellW, 15/2 * cfg85.cellH)

/-- One-point store on the source's own 85-row configuration. -/
def gE : Grid := spawn_objects cfg85 (emptyGrid cfg85) [⟨1, pE, 3⟩]

/-- Tie query point: center of cell (1,1) of the 9-row grid. -/
def pF : ℚ × ℚ := (180, 180)

/-- Tie candidate to the right of the query, distance 3. -/
def aF : ℚ × ℚ := (183, 180)

/-- Tie candidate to the left of the query, also distance 3. -/
def bF : ℚ × ℚ := (177, 180)

/-- Tie store, first insertion order. -/
def sF1 : List Spawn := [⟨1, pF, 1⟩, ⟨2, aF, 2⟩, ⟨3, bF, 3⟩]

/-- Tie store, the same three points with the two tied candidates
inserted in the opposite order (same key-to-object map; only the
incidental bucket iteration order differs). -/
def sF2 : List Spawn := [⟨1, pF, 1⟩, ⟨3, bF, 3⟩, ⟨2, aF, 2⟩]

/-! ## Elementary facts about ranges and the accumulated candidates -/

theorem mem_rangeIncl {a b x : ℕ} : x ∈ rangeIncl a b ↔ a ≤ x ∧ x ≤ b := by
  simp only [rangeIncl, List.mem_map, List.mem_range]
  constructor
  · rintro ⟨j, hj, rfl⟩; omega
  · rintro ⟨h1, h2⟩; exact ⟨x - a, by omega, by omega⟩

theorem accumLayers_zero (cfg : Cfg) (cell : ℕ × ℕ) (id : ℕ) (g : Grid) :
    accumLayers cfg cell id g 0 = scan_layer cfg cell id g 0 := by
  simp [accumLayers, List.range_succ]

theorem accumLayers_succ (cfg : Cfg) (cell : ℕ × ℕ) (id : ℕ) (g : Grid) (L : ℕ) :
    accumLayers cfg cell id g (L + 1) =
      accumLayers cfg cell id g L ++ scan_layer cfg cell id g (L + 1) := by
  simp [accumLayers, List.range_succ]

theorem accumLayers_eq_nil_iff (cfg : Cfg) (cell : ℕ × ℕ) (id : ℕ) (g : Grid)
    (L : ℕ) :
    accumLayers cfg cell id g L = [] ↔
      ∀ M ≤ L, scan_layer cfg cell id g M = [] := by
  simp only [accumLayers, List.flatMap_eq_nil_iff, List.mem_range]
  exact ⟨fun h M hM => h M (by omega), fun h M hM => h M (by omega)⟩

theorem mem_accumLayers {cfg : Cfg} {cell : ℕ × ℕ} {id : ℕ} {g : Grid}
    {L M : ℕ} {o : Obj} (hML : M ≤ L) (h : o ∈ scan_layer cfg cell id g M) :
    o ∈ accumLayers cfg cell id g L := by
  simp only [accumLayers, List.mem_flatMap, List.mem_range]
  exact ⟨M, by omega, h⟩

/-! ## The ring loop: exact characterization of its exits

The loop of `find_closest` breaks exactly at the first layer whose scan
makes the accumulated candidate list non-empty; the accumulator carried
into every iteration is `[]` (a layer is only passed when it contributed
nothing).  `ring_loop_eq_some_iff` states this for the loop as entered by
the source (layer 0, empty accumulator). -/

theorem ring_loop_aux (cfg : Cfg) (cell : ℕ × ℕ) (id : ℕ) (g : Grid) :
    ∀ (fuel ℓ : ℕ), (∀ M < ℓ, scan_layer cfg cell id g M = []) →
      ∀ (L : ℕ) (acc : List Obj),
      (ring_loop cfg cell id g fuel ℓ [] = some (L, acc) ↔
        ℓ ≤ L ∧ L - ℓ < fuel ∧ accumLayers cfg cell id g L ≠ [] ∧
        (∀ M < L, accumLayers cfg cell id g M = []) ∧
        acc = accumLayers cfg cell id g L)
  | 0, ℓ, _, L, acc => by
    simp only [ring_loop]
    constructor
    · intro h; exact absurd h (by simp)
    · rintro ⟨_, h, _⟩; omega
  | fuel + 1, ℓ, hprev, L, acc => by
    have hacc : accumLayers cfg cell id g ℓ = scan_layer cfg cell id g ℓ := by
      cases ℓ with
      | zero => exact accumLayers_zero ..
      | succ m =>
        rw [accumLayers_succ, (accumLayers_eq_nil_iff ..).2 fun M hM =>
          hprev M (by omega), List.nil_append]
    by_cases hscan : scan_layer cfg cell id g ℓ = []
    · have hstep : ring_loop cfg cell id g (fuel + 1) ℓ [] =
          ring_loop cfg cell id g fuel (ℓ + 1) [] := by
        simp [ring_loop, hscan]
      rw [hstep, ring_loop_aux cfg cell id g fuel (ℓ + 1)
        (fun M hM => by rcases Nat.lt_succ_iff_lt_or_eq.1 hM with h | h
                        exacts [hprev M h, h ▸ hscan])]
      have haccℓ : accumLayers cfg cell id g ℓ = [] := by rw [hacc]; exact hscan
      constructor
      · rintro ⟨h1, h2, h3, h4, h5⟩
        exact ⟨by omega, by omega, h3, h4, h5⟩
      · rintro ⟨h1, h2, h3, h4, h5⟩
        have hne : ℓ ≠ L := fun h => h3 (h ▸ haccℓ)
        exact ⟨by omega, by omega, h3, h4, h5⟩
    · have hstep : ring_loop cfg cell id g (fuel + 1) ℓ [] =
          some (ℓ, scan_layer cfg cell id g ℓ) := by
        simp [ring_loop, hscan]
      rw [hstep]
      constructor
      · intro h
        obtain ⟨rfl, rfl⟩ : ℓ = L ∧ scan_layer cfg cell id g ℓ = acc := by
          simpa using h
        refine ⟨le_refl _, by omega, by rw [hacc]; exact hscan, ?_, hacc.symm⟩
        intro M hM
        exact (accumLayers_eq_nil_iff ..).2 fun M' hM' => hprev M' (by omega)
      · rintro ⟨h1, h2, h3, h4, h5⟩
        have hLℓ : L = ℓ := by
          by_contra hne
          have : accumLayers cfg cell id g ℓ = [] := h4 ℓ (by omega)
          rw [hacc] at this
          exact hscan this
        subst hLℓ
        rw [h5, hacc]

theorem ring_loop_eq_some_iff (cfg : Cfg) (cell : ℕ × ℕ) (id : ℕ) (g : Grid)
    (fuel L : ℕ) (acc : List Obj) :
    ring_loop cfg cell id g fuel 0 [] = some (L, acc) ↔
      L < fuel ∧ accumLayers cfg cell id g L ≠ [] ∧
      (∀ M < L, accumLayers cfg cell id g M = []) ∧
      acc = accumLayers cfg cell id g L := by
  rw [ring_loop_aux cfg cell id g fuel 0 (fun M hM => absurd hM (by omega)) L acc]
  constructor
  · rintro ⟨_, h2, h3, h4, h5⟩; exact ⟨by omega, h3, h4, h5⟩
  · rintro ⟨h1, h2, h3, h4⟩; exact ⟨by omega, by omega, h2, h3, h4⟩

/-- The only way the ring loop produces a result is with a non-empty
candidate list: the sole `break` is guarded by `!visible_objects.is_empty()`. -/
theorem ring_loop_out_ne_nil (cfg : Cfg) (cell : ℕ × ℕ) (id : ℕ) (g : Grid) :
    ∀ (fuel layer : ℕ) (acc out : List Obj) (L : ℕ),
      ring_loop cfg cell id g fuel layer acc = some (L, out) → out ≠ []
  | 0, layer, acc, out, L => by simp [ring_loop]
  | fuel + 1, layer, acc, out, L => by
    simp only [ring_loop]
    by_cases h : acc ++ scan_layer cfg cell id g layer = []
    · rw [if_pos h]
      exact ring_loop_out_ne_nil cfg cell id g fuel (layer + 1) _ out L
    · rw [if_neg h]
      intro heq
      obtain ⟨-, rfl⟩ : layer = L ∧ acc ++ scan_layer cfg cell id g layer = out := by
        simpa using heq
      exact h

/-- If no layer ever contributes a candidate, the loop runs out of any
amount of fuel: the Rust loop never terminates. -/
theorem ring_loop_none_of_forall_empty (cfg : Cfg) (cell : ℕ × ℕ) (id : ℕ)
    (g : Grid) (h : ∀ M, scan_layer cfg cell id g M = []) :
    ∀ (fuel ℓ : ℕ), ring_loop cfg cell id g fuel ℓ [] = none
  | 0, ℓ => by simp [ring_loop]
  | fuel + 1, ℓ => by
    simp only [ring_loop, h ℓ, List.append_nil, if_pos]
    exact ring_loop_none_of_forall_empty cfg cell id g h fuel (ℓ + 1)

/-! ## Coverage: each in-range cell is scanned at its Chebyshev layer -/

theorem mem_scan_top {cfg : Cfg} {cx cy k id : ℕ} {o : Obj} {g : Grid}
    (layer x : ℕ) (h : layer ≤ cy) (hx1 : cx - layer ≤ x) (hx2 : x ≤ cx + layer)
    (hx3 : x ≤ cfg.cols - 1)
    (hmem : (k, o) ∈ bucketAt g (cy - layer) x) (hk : k ≠ id) :
    o ∈ scan_layer cfg (cx, cy) id g layer := by
  simp only [scan_layer]
  refine List.mem_append.2 (Or.inl (List.mem_append.2 (Or.inl
    (List.mem_append.2 (Or.inl ?_)))))
  rw [if_pos h]
  refine List.mem_flatMap.2 ⟨x, mem_rangeIncl.2 ⟨hx1, le_min (by omega) (by omega)⟩, ?_⟩
  exact List.mem_map.2 ⟨(k, o), List.mem_filter.2 ⟨hmem, by simpa using hk⟩, rfl⟩

theorem mem_scan_bottom {cfg : Cfg} {cx cy k id : ℕ} {o : Obj} {g : Grid}
    (layer x : ℕ) (h0 : 0 < layer) (h : cy + layer ≤ cfg.rows - 1)
    (hx1 : cx - layer ≤ x) (hx2 : x ≤ cx + layer) (hx3 : x ≤ cfg.cols - 1)
    (hmem : (k, o) ∈ bucketAt g (cy + layer) x) :
    o ∈ scan_layer cfg (cx, cy) id g layer := by
  simp only [scan_layer]
  refine List.mem_append.2 (Or.inl (List.mem_append.2 (Or.inl
    (List.mem_append.2 (Or.inr ?_)))))
  rw [if_pos ⟨h0, h⟩]
  refine List.mem_flatMap.2 ⟨x, mem_rangeIncl.2 ⟨hx1, le_min (by omega) (by omega)⟩, ?_⟩
  exact List.mem_map.2 ⟨(k, o), hmem, rfl⟩

theorem mem_scan_left {cfg : Cfg} {cx cy k id : ℕ} {o : Obj} {g : Grid}
    (layer y : ℕ) (h0 : 0 < layer) (h : layer ≤ cx)
    (hy1 : cy - (layer - 1) ≤ y) (hy2 : y ≤ cy + (layer - 1))
    (hy3 : y ≤ cfg.rows - 1)
    (hmem : (k, o) ∈ bucketAt g y (cx - layer)) :
    o ∈ scan_layer cfg (cx, cy) id g layer := by
  simp only [scan_layer]
  refine List.mem_append.2 (Or.inl (List.mem_append.2 (Or.inr ?_)))
  rw [if_pos ⟨h0, h⟩]
  refine List.mem_flatMap.2 ⟨y, mem_rangeIncl.2 ⟨hy1, le_min (by omega) (by omega)⟩, ?_⟩
  exact List.mem_map.2 ⟨(k, o), hmem, rfl⟩

theorem mem_scan_right {cfg : Cfg} {cx cy k id : ℕ} {o : Obj} {g : Grid}
    (layer y : ℕ) (h0 : 0 < layer) (h : cx + layer ≤ cfg.cols - 1)
    (hy1 : cy - (layer - 1) ≤ y) (hy2 : y ≤ cy + (layer - 1))
    (hy3 : y ≤ cfg.rows - 1)
    (hmem : (k, o) ∈ bucketAt g y (cx + layer)) :
    o ∈ scan_layer cfg (cx, cy) id g layer := by
  simp only [scan_layer]
  refine List.mem_append.2 (Or.inr ?_)
  rw [if_pos ⟨h0, h⟩]
  refine List.mem_flatMap.2 ⟨y, mem_rangeIncl.2 ⟨hy1, le_min (by omega) (by omega)⟩, ?_⟩
  exact List.mem_map.2 ⟨(k, o), hmem, rfl⟩

/-- An object with a different key, stored at any in-range cell, is
collected by the ring scan of the layer equal to the Chebyshev distance
from the query cell to its cell (the query cell itself being in range). -/
theorem mem_scan_layer_of_cheb {cfg : Cfg} {cx cy x y k id : ℕ} {o : Obj}
    {g : Grid} (hmem : (k, o) ∈ bucketAt g y x) (hk : k ≠ id)
    (hx : x < cfg.cols) (hy : y < cfg.rows)
    (hcx : cx < cfg.cols) (hcy : cy < cfg.rows) :
    o ∈ scan_layer cfg (cx, cy) id g (chebDist (cx, cy) (x, y)) := by
  set L := chebDist (cx, cy) (x, y) with hL
  have hLdef : L = max (max (cx - x) (x - cx)) (max (cy - y) (y - cy)) := hL
  by_cases hT : cy - y = L ∧ y ≤ cy
  · exact mem_scan_top L x (by omega) (by omega) (by omega) (by omega)
      (by rwa [show cy - L = y by omega]) hk
  · by_cases hB : y - cy = L ∧ cy < y
    · exact mem_scan_bottom L x (by omega) (by omega) (by omega) (by omega)
        (by omega) (by rwa [show cy + L = y by omega])
    · have hyL : cy - y < L ∧ y - cy < L := by omega
      by_cases hLft : cx - x = L ∧ x ≤ cx
      · exact mem_scan_left L y (by omega) (by omega) (by omega) (by omega)
          (by omega) (by rwa [show cx - L = x by omega])
      · have hR : x - cx = L ∧ cx < x := by omega
        exact mem_scan_right L y (by omega) (by omega) (by omega) (by omega)
          (by omega) (by rwa [show cx + L = x by omega])

/-- At any in-range cell pair the Chebyshev layer is below the fuel the
model gives the loop. -/
theorem chebDist_lt_ringFuel {cfg : Cfg} {cx cy x y : ℕ}
    (hx : x < cfg.cols) (hy : y < cfg.rows)
    (hcx : cx < cfg.cols) (hcy : cy < cfg.rows) :
    chebDist (cx, cy) (x, y) < ringFuel cfg := by
  simp only [chebDist, ringFuel]
  omega

/-- Membership in a grid entry forces the indices into range on a
well-formed grid. -/
theorem bucketAt_mem_range {cfg : Cfg} {g : Grid} {y x k : ℕ} {o : Obj}
    (hWF : WF cfg g) (hmem : (k, o) ∈ bucketAt g y x) :
    x < cfg.cols ∧ y < cfg.rows := by
  obtain ⟨hlen, hrow⟩ := hWF
  by_cases hy : y < g.length
  · have hrowmem : g.getD y [] ∈ g := by
      rw [List.getD_eq_getElem?_getD, List.getElem?_eq_getElem hy]
      exact List.getElem_mem hy
    have hrl : (g.getD y []).length = cfg.cols := hrow _ hrowmem
    by_cases hx : x < (g.getD y []).length
    · exact ⟨by omega, by omega⟩
    · exfalso
      have : bucketAt g y x = [] := by
        unfold bucketAt
        rw [List.getD_eq_getElem?_getD, List.getElem?_eq_none (by omega)]
        rfl
      simp [this] at hmem
  · exfalso
    have : bucketAt g y x = [] := by
      unfold bucketAt
      rw [List.getD_eq_getElem?_getD (l := g), List.getElem?_eq_none (by omega)]
      rfl
    simp [this] at hmem

/-! ## Geometry of the configuration and the position-to-cell map -/

theorem cols_pos {cfg : Cfg} (h : 1 ≤ cfg.rows) : 1 ≤ cfg.cols := by
  have hq : (16 : ℚ) / 9 ≤ (cfg.rows : ℚ) * (SCREEN_WIDTH / SCREEN_HEIGHT) := by
    have h1 : (1 : ℚ) ≤ (cfg.rows : ℚ) := by exact_mod_cast h
    have : SCREEN_WIDTH / SCREEN_HEIGHT = 16 / 9 := by norm_num [SCREEN_WIDTH, SCREEN_HEIGHT]
    rw [this]
    nlinarith
  have hnn : ¬ ((cfg.rows : ℚ) * (SCREEN_WIDTH / SCREEN_HEIGHT) < 0) := by
    intro hlt; nlinarith
  have hfl : (1 : ℤ) ≤ ⌊(cfg.rows : ℚ) * (SCREEN_WIDTH / SCREEN_HEIGHT) + 1/2⌋ := by
    rw [Int.le_floor]
    push_cast
    linarith
  unfold Cfg.cols roundHalfAway
  rw [if_neg hnn]
  omega

theorem cellW_pos {cfg : Cfg} (h : 1 ≤ cfg.rows) : 0 < cfg.cellW := by
  have := cols_pos h
  unfold Cfg.cellW SCREEN_WIDTH
  positivity

theorem cellH_pos {cfg : Cfg} (h : 1 ≤ cfg.rows) : 0 < cfg.cellH := by
  unfold Cfg.cellH SCREEN_HEIGHT
  have : (0 : ℚ) < (cfg.rows : ℚ) := by exact_mod_cast h
  positivity

/-- `u64cast` of a quotient is below `n` as soon as the numerator is
below `n` times the (positive) denominator. -/
theorem u64cast_div_lt {a c : ℚ} {n : ℕ} (hn : 0 < n) (hc : 0 < c)
    (h : a < n * c) : u64cast (a / c) < n := by
  have hfl : ⌊a / c⌋ < (n : ℤ) := by
    rw [Int.floor_lt]
    push_cast
    rw [div_lt_iff hc]
    exact h
  unfold u64cast
  omega

/-- Amended boundary behavior (the source does not clamp): any position
inside the half-open world rectangle `[0, W) × [0, H)` — including
positions exactly on interior cell edges — maps to an in-range cell. -/
theorem cell_by_pos_lt {cfg : Cfg} {p : ℚ × ℚ} (hrows : 1 ≤ cfg.rows)
    (hx0 : 0 ≤ p.1) (hx1 : p.1 < SCREEN_WIDTH)
    (hy0 : 0 ≤ p.2) (hy1 : p.2 < SCREEN_HEIGHT) :
    (cell_by_pos cfg p).1 < cfg.cols ∧ (cell_by_pos cfg p).2 < cfg.rows := by
  have hcols := cols_pos hrows
  have hcw := cellW_pos hrows
  have hch := cellH_pos hrows
  constructor
  · refine u64cast_div_lt (by omega) hcw ?_
    have : (cfg.cols : ℚ) * cfg.cellW = SCREEN_WIDTH := by
      unfold Cfg.cellW
      field_simp
    rw [this]
    exact hx1
  · refine u64cast_div_lt (by omega) hch ?_
    have : (cfg.rows : ℚ) * cfg.cellH = SCREEN_HEIGHT := by
      unfold Cfg.cellH
      have : ((cfg.rows : ℚ)) ≠ 0 := by
        have : (0 : ℚ) < (cfg.rows : ℚ) := by exact_mod_cast hrows
        linarith
      field_simp
    rw [this]
    exact hy1

/-! ## Termination of the ring loop when another object exists -/

theorem ring_loop_exits {cfg : Cfg} {g : Grid} {y x k id cx cy : ℕ} {o : Obj}
    (hWF : WF cfg g) (hmem : (k, o) ∈ bucketAt g y x) (hk : k ≠ id)
    (hcx : cx < cfg.cols) (hcy : cy < cfg.rows) :
    ∃ L acc, ring_loop cfg (cx, cy) id g (ringFuel cfg) 0 [] = some (L, acc) := by
  obtain ⟨hxr, hyr⟩ := bucketAt_mem_range hWF hmem
  have hP : accumLayers cfg (cx, cy) id g (chebDist (cx, cy) (x, y)) ≠ [] :=
    List.ne_nil_of_mem
      (mem_accumLayers le_rfl (mem_scan_layer_of_cheb hmem hk hxr hyr hcx hcy))
  have hex : ∃ L, accumLayers cfg (cx, cy) id g L ≠ [] := ⟨_, hP⟩
  refine ⟨Nat.find hex, accumLayers cfg (cx, cy) id g (Nat.find hex),
    (ring_loop_eq_some_iff ..).2 ⟨?_, Nat.find_spec hex, ?_, rfl⟩⟩
  · exact lt_of_le_of_lt (Nat.find_min' hex hP)
      (chebDist_lt_ringFuel hxr hyr hcx hcy)
  · intro M hM
    have := Nat.find_min hex hM
    exact not_ne_iff.1 this

theorem min_by_dist_of_ne_nil (p : ℚ × ℚ) {l : List Obj} (h : l ≠ []) :
    ∃ a, min_by_dist p l = some a := by
  cases l with
  | nil => exact absurd rfl h
  | cons a l => exact ⟨_, rfl⟩

/-- Whenever the ring loop exits, `find_closest` produces a result. -/
theorem find_closest_isSome_of_ring_some {cfg : Cfg} {id : ℕ} {p : ℚ × ℚ}
    {g : Grid} {L : ℕ} {acc : List Obj}
    (h : ring_loop cfg (cell_by_pos cfg p) id g (ringFuel cfg) 0 [] =
      some (L, acc)) :
    (find_closest cfg id p g).isSome := by
  have hne : acc ≠ [] := ring_loop_out_ne_nil cfg (cell_by_pos cfg p) id g
    (ringFuel cfg) 0 [] acc L h
  cases acc with
  | nil => exact absurd rfl hne
  | cons a l =>
    simp only [find_closest]
    rw [h]
    rfl

/-! ## Grid state: allocation, insertion, reset -/

theorem getD_set_self {α : Type} : ∀ (l : List α) (i : ℕ) (a d : α),
    i < l.length → (l.set i a).getD i d = a
  | [], i, a, d, h => by simp at h
  | b :: l, 0, a, d, _ => rfl
  | b :: l, i + 1, a, d, h =>
    getD_set_self l i a d (by simpa using h)

theorem getD_set_ne {α : Type} : ∀ (l : List α) (i j : ℕ) (a d : α),
    i ≠ j → (l.set i a).getD j d = l.getD j d
  | [], i, j, a, d, _ => rfl
  | b :: l, 0, 0, a, d, h => absurd rfl h
  | b :: l, 0, j + 1, a, d, _ => rfl
  | b :: l, i + 1, 0, a, d, _ => rfl
  | b :: l, i + 1, j + 1, a, d, h =>
    getD_set_ne l i j a d (by omega)

theorem getD_set_oob {α : Type} : ∀ (l : List α) (i : ℕ) (a : α),
    l.length ≤ i → l.set i a = l
  | [], i, a, _ => rfl
  | b :: l, i + 1, a, h => by
    simpa using getD_set_oob l i a (by simpa using h)

theorem getD_replicate_self {α : Type} : ∀ (n i : ℕ) (a d : α),
    (List.replicate n a).getD i d = if i < n then a else d
  | 0, i, a, d => by simp
  | n + 1, 0, a, d => by simp [List.replicate]
  | n + 1, i + 1, a, d => by
    simpa [List.replicate] using getD_replicate_self n i a d

theorem bucketAt_emptyGrid (cfg : Cfg) (y x : ℕ) :
    bucketAt (emptyGrid cfg) y x = [] := by
  unfold bucketAt emptyGrid
  rw [getD_replicate_self]
  split
  · rw [getD_replicate_self]
    split <;> rfl
  · rfl

theorem WF_emptyGrid (cfg : Cfg) : WF cfg (emptyGrid cfg) := by
  refine ⟨List.length_replicate .., fun row hrow => ?_⟩
  rw [List.eq_of_mem_replicate hrow]
  exact List.length_replicate ..

theorem getD_mem {α : Type} {l : List α} {i : ℕ} {d : α} (h : i < l.length) :
    l.getD i d ∈ l := by
  rw [List.getD_eq_getElem?_getD, List.getElem?_eq_getElem h]
  exact List.getElem_mem h

theorem WF_gridInsert {cfg : Cfg} {g : Grid} {y x k : ℕ} {o : Obj}
    (hWF : WF cfg g) : WF cfg (gridInsert g y x k o) := by
  obtain ⟨hlen, hrow⟩ := hWF
  by_cases hy : y < g.length
  · refine ⟨by rw [gridInsert, List.length_set]; exact hlen, fun row hmem => ?_⟩
    rcases List.mem_or_eq_of_mem_set hmem with h | h
    · exact hrow row h
    · subst h
      rw [List.length_set]
      exact hrow _ (getD_mem hy)
  · rw [gridInsert, getD_set_oob g y _ (by omega)]
    exact ⟨hlen, hrow⟩

theorem bucketAt_gridInsert_self {g : Grid} {y x : ℕ} (k : ℕ) (o : Obj)
    (hy : y < g.length) (hx : x < (g.getD y []).length) :
    bucketAt (gridInsert g y x k o) y x = insertKV (bucketAt g y x) k o := by
  unfold bucketAt gridInsert
  rw [getD_set_self _ _ _ _ hy, getD_set_self _ _ _ _ hx]
  rfl

theorem bucketAt_gridInsert_ne {g : Grid} {y x y' x' : ℕ} (k : ℕ) (o : Obj)
    (hne : y' ≠ y ∨ x' ≠ x) :
    bucketAt (gridInsert g y x k o) y' x' = bucketAt g y' x' := by
  unfold bucketAt gridInsert
  by_cases hy : y = y'
  · subst hy
    have hx : x ≠ x' := by tauto
    by_cases hylen : y < g.length
    · rw [getD_set_self _ _ _ _ hylen, getD_set_ne _ _ _ _ _ hx]
    · rw [getD_set_oob g y _ (by omega)]
  · rw [getD_set_ne _ _ _ _ _ hy]

theorem reset_getD : ∀ (g : Grid) (y : ℕ),
    (reset_objects g).getD y [] =
      (g.getD y []).map (fun _ => ([] : List (ℕ × Obj)))
  | [], y => by cases y <;> rfl
  | row :: g, 0 => rfl
  | row :: g, y + 1 => reset_getD g y

theorem map_const_nil_getD :
    ∀ (row : List (List (ℕ × Obj))) (x : ℕ),
      (row.map (fun _ => ([] : List (ℕ × Obj)))).getD x [] = []
  | [], _ => rfl
  | b :: row, 0 => rfl
  | b :: row, x + 1 => map_const_nil_getD row x

theorem bucketAt_reset (g : Grid) (y x : ℕ) :
    bucketAt (reset_objects g) y x = [] := by
  unfold bucketAt
  rw [reset_getD, map_const_nil_getD]

theorem mem_insertKV {l : List (ℕ × Obj)} {k : ℕ} {o : Obj} {e : ℕ × Obj}
    (h : e ∈ insertKV l k o) : e ∈ l ∨ e = (k, o) := by
  unfold insertKV at h
  split at h
  · obtain ⟨e', he', heq⟩ := List.mem_map.1 h
    by_cases hk : e'.1 = k
    · right
      rw [← heq, if_pos hk]
    · left
      rwa [← heq, if_neg hk]
  · rcases List.mem_append.1 h with h | h
    · exact Or.inl h
    · exact Or.inr (by simpa using h)

theorem keyIn_iff_any (l : List (ℕ × Obj)) (k : ℕ) :
    (l.any fun e => e.1 = k) = true ↔ keyIn l k := by
  simp [List.any_eq_true, keyIn]

theorem length_insertKV (l : List (ℕ × Obj)) (k : ℕ) (o : Obj) :
    (insertKV l k o).length = if keyIn l k then l.length else l.length + 1 := by
  unfold insertKV
  by_cases hany : (l.any fun e => e.1 = k) = true
  · rw [if_pos hany, if_pos ((keyIn_iff_any l k).1 hany), List.length_map]
  · rw [if_neg hany, if_neg (fun hk => hany ((keyIn_iff_any l k).2 hk)),
      List.length_append]
    rfl

theorem keyIn_insertKV (l : List (ℕ × Obj)) (k k' : ℕ) (o : Obj) :
    keyIn (insertKV l k o) k' ↔ keyIn l k' ∨ k = k' := by
  unfold insertKV
  by_cases hany : (l.any fun e => e.1 = k) = true
  · rw [if_pos hany]
    simp only [keyIn, List.mem_map]
    constructor
    · rintro ⟨e, ⟨e', he', rfl⟩, hk⟩
      by_cases h : e'.1 = k
      · rw [if_pos h] at hk
        exact Or.inr hk
      · rw [if_neg h] at hk
        exact Or.inl ⟨e', he', hk⟩
    · rintro (⟨e, he, hk⟩ | rfl)
      · by_cases h : e.1 = k
        · refine ⟨(k, o), ⟨e, he, by rw [if_pos h]⟩, ?_⟩
          rw [← hk, h]
        · exact ⟨e, ⟨e, he, by rw [if_neg h]⟩, hk⟩
      · obtain ⟨e, he, hk⟩ := List.any_eq_true.1 hany
        exact ⟨(k, o), ⟨e, he, by rw [if_pos (by simpa using hk)]⟩, rfl⟩
  · rw [if_neg hany]
    simp only [keyIn, List.mem_append, List.mem_singleton]
    constructor
    · rintro ⟨e, he | he, hk⟩
      · exact Or.inl ⟨e, he, hk⟩
      · subst he
        exact Or.inr hk
    · rintro (⟨e, he, hk⟩ | rfl)
      · exact ⟨e, Or.inl he, hk⟩
      · exact ⟨(k, o), Or.inr rfl, rfl⟩

theorem sum_set_nat : ∀ (L : List ℕ) (n a : ℕ), n < L.length →
    (L.set n a).sum + L.getD n 0 = L.sum + a
  | [], n, a, h => by simp at h
  | b :: L, 0, a, _ => by
    simp only [List.set, List.sum_cons, List.getD_cons_zero]
    omega
  | b :: L, n + 1, a, h => by
    simp only [List.set, List.sum_cons, List.getD_cons_succ]
    have := sum_set_nat L n a (by simpa using h)
    omega

theorem totalCount_emptyGrid (cfg : Cfg) : totalCount (emptyGrid cfg) = 0 := by
  unfold totalCount emptyGrid
  simp [List.map_replicate]

theorem getD_map_rowsum : ∀ (g : Grid) (y : ℕ), y < g.length →
    (g.map (fun row => (row.map List.length).sum)).getD y 0 =
      ((g.getD y []).map List.length).sum
  | [], y, h => by simp at h
  | row :: g, 0, _ => rfl
  | row :: g, y + 1, h => getD_map_rowsum g y (by simpa using h)

theorem getD_map_length : ∀ (row : List (List (ℕ × Obj))) (x : ℕ),
    x < row.length → (row.map List.length).getD x 0 = (row.getD x []).length
  | [], x, h => by simp at h
  | b :: row, 0, _ => rfl
  | b :: row, x + 1, h => getD_map_length row x (by simpa using h)

theorem totalCount_gridInsert {g : Grid} {y x k : ℕ} {o : Obj}
    (hy : y < g.length) (hx : x < (g.getD y []).length) :
    totalCount (gridInsert g y x k o) =
      totalCount g + (if keyIn (bucketAt g y x) k then 0 else 1) := by
  have hrowsum :
      (((g.getD y []).set x (insertKV (bucketAt g y x) k o)).map List.length).sum +
        ((g.getD y []).map List.length).getD x 0 =
      ((g.getD y []).map List.length).sum + (insertKV (bucketAt g y x) k o).length := by
    rw [List.map_set]
    exact sum_set_nat _ x _ (by rwa [List.length_map])
  rw [getD_map_length _ x hx] at hrowsum
  have hb : (g.getD y []).getD x [] = bucketAt g y x := rfl
  rw [hb, length_insertKV] at hrowsum
  have houter := sum_set_nat (g.map (fun row => (row.map List.length).sum)) y
    ((((g.getD y []).set x (insertKV (bucketAt g y x) k o)).map List.length).sum)
    (by rwa [List.length_map])
  rw [getD_map_rowsum g y hy] at houter
  have hgoal : totalCount (gridInsert g y x k o) =
      ((g.map (fun row => (row.map List.length).sum)).set y
        ((((g.getD y []).set x (insertKV (bucketAt g y x) k o)).map List.length).sum)).sum := by
    unfold totalCount gridInsert
    rw [List.map_set]
  rw [hgoal]
  unfold totalCount
  by_cases hkey : keyIn (bucketAt g y x) k
  · rw [if_pos hkey] at hrowsum ⊢
    have hEA := Nat.add_right_cancel hrowsum
    have houter' := houter.trans (by rw [hEA])
    rw [Nat.add_zero]
    exact Nat.add_right_cancel houter'
  · rw [if_neg hkey] at hrowsum ⊢
    have hEA : (List.map List.length
        ((List.getD g y []).set x (insertKV (bucketAt g y x) k o))).sum =
        (List.map List.length (List.getD g y [])).sum + 1 := by
      have h1 : (List.map List.length (List.getD g y [])).sum +
          ((bucketAt g y x).length + 1) =
          ((List.map List.length (List.getD g y [])).sum + 1) +
          (bucketAt g y x).length := by
        rw [Nat.add_assoc, Nat.add_comm 1 (bucketAt g y x).length]
      exact Nat.add_right_cancel (hrowsum.trans h1)
    have h2 : (List.map (fun row => (List.map List.length row).sum) g).sum +
        (List.map List.length
          ((List.getD g y []).set x (insertKV (bucketAt g y x) k o))).sum =
        ((List.map (fun row => (List.map List.length row).sum) g).sum + 1) +
        (List.map List.length (List.getD g y [])).sum := by
      rw [hEA, Nat.add_assoc, Nat.add_comm 1 (List.map List.length (List.getD g y [])).sum]
    exact Nat.add_right_cancel (houter.trans h2)

/-! ## Spawn: placement invariant and object counting -/

theorem Placed_emptyGrid (cfg : Cfg) : Placed cfg (emptyGrid cfg) := by
  intro y x k o hmem
  rw [bucketAt_emptyGrid] at hmem
  simp at hmem

theorem spawn_objects_cons (cfg : Cfg) (g : Grid) (s : Spawn) (l : List Spawn) :
    spawn_objects cfg g (s :: l) =
      spawn_objects cfg
        (gridInsert g (cell_by_pos cfg s.pos).2 (cell_by_pos cfg s.pos).1 s.key
          ⟨s.pos, s.color⟩) l := rfl

theorem row_length_of_WF {cfg : Cfg} {g : Grid} (hWF : WF cfg g) {y : ℕ}
    (hy : y < g.length) : (g.getD y []).length = cfg.cols :=
  hWF.2 _ (getD_mem hy)

/-- One spawn step preserves well-formedness and correct placement. -/
theorem Placed_gridInsert {cfg : Cfg} {g : Grid} {s : Spawn}
    (hrows : 1 ≤ cfg.rows) (hWF : WF cfg g) (hpl : Placed cfg g)
    (hin : inWorld s.pos) :
    Placed cfg
      (gridInsert g (cell_by_pos cfg s.pos).2 (cell_by_pos cfg s.pos).1 s.key
        ⟨s.pos, s.color⟩) := by
  obtain ⟨h1, h2, h3, h4⟩ := hin
  obtain ⟨hcx, hcy⟩ := cell_by_pos_lt hrows h1 h2 h3 h4
  have hglen : g.length = cfg.rows := hWF.1
  intro y x k o hmem
  by_cases hhit : y = (cell_by_pos cfg s.pos).2 ∧ x = (cell_by_pos cfg s.pos).1
  · obtain ⟨rfl, rfl⟩ : y = (cell_by_pos cfg s.pos).2 ∧ x = (cell_by_pos cfg s.pos).1 := hhit
    rw [bucketAt_gridInsert_self _ _ (by omega)
      (by rw [row_length_of_WF hWF (by omega)]; omega)] at hmem
    rcases mem_insertKV hmem with h | h
    · exact hpl _ _ _ _ h
    · obtain ⟨rfl, rfl⟩ : k = s.key ∧ o = ⟨s.pos, s.color⟩ := by
        exact ⟨congrArg Prod.fst h, congrArg Prod.snd h⟩
      rfl
  · rw [bucketAt_gridInsert_ne _ _ (by tauto)] at hmem
    exact hpl _ _ _ _ hmem

theorem WF_spawn_objects {cfg : Cfg} :
    ∀ (l : List Spawn) (g : Grid), WF cfg g →
      WF cfg (spawn_objects cfg g l)
  | [], g, hWF => hWF
  | s :: l, g, hWF => by
    rw [spawn_objects_cons]
    exact WF_spawn_objects l _ (WF_gridInsert hWF)

theorem Placed_spawn_objects {cfg : Cfg} (hrows : 1 ≤ cfg.rows) :
    ∀ (l : List Spawn) (g : Grid), WF cfg g → Placed cfg g →
      (∀ s ∈ l, inWorld s.pos) → Placed cfg (spawn_objects cfg g l)
  | [], g, _, hpl, _ => hpl
  | s :: l, g, hWF, hpl, hin => by
    rw [spawn_objects_cons]
    exact Placed_spawn_objects hrows l _ (WF_gridInsert hWF)
      (Placed_gridInsert hrows hWF hpl (hin s (by simp)))
      (fun s' hs' => hin s' (by simp [hs']))

theorem set_getD_self {α : Type} : ∀ (l : List α) (i : ℕ) (d : α),
    l.set i (l.getD i d) = l
  | [], _, _ => rfl
  | a :: l, 0, d => rfl
  | a :: l, i + 1, d => by simpa using set_getD_self l i d

theorem totalCount_gridInsert_le (g : Grid) (y x k : ℕ) (o : Obj) :
    totalCount (gridInsert g y x k o) ≤ totalCount g + 1 := by
  by_cases hy : y < g.length
  · by_cases hx : x < (g.getD y []).length
    · rw [totalCount_gridInsert hy hx]
      split <;> omega
    · have hnoop : gridInsert g y x k o = g := by
        unfold gridInsert
        rw [getD_set_oob (g.getD y []) x _ (by omega), set_getD_self]
      rw [hnoop]
      omega
  · have : gridInsert g y x k o = g := by
      unfold gridInsert
      rw [getD_set_oob g y _ (by omega)]
    rw [this]
    omega

theorem totalCount_spawn_le (cfg : Cfg) :
    ∀ (l : List Spawn) (g : Grid),
      totalCount (spawn_objects cfg g l) ≤ totalCount g + l.length
  | [], g => le_of_eq rfl
  | s :: l, g => by
    rw [spawn_objects_cons]
    have h1 := totalCount_spawn_le cfg l
      (gridInsert g (cell_by_pos cfg s.pos).2 (cell_by_pos cfg s.pos).1 s.key
        ⟨s.pos, s.color⟩)
    have h2 := totalCount_gridInsert_le g (cell_by_pos cfg s.pos).2
      (cell_by_pos cfg s.pos).1 s.key ⟨s.pos, s.color⟩
    simp only [List.length_cons]
    omega

theorem keyIn_bucketAt_gridInsert {g : Grid} {y x k : ℕ} {o : Obj}
    (hy : y < g.length) (hx : x < (g.getD y []).length) (y' x' k' : ℕ) :
    keyIn (bucketAt (gridInsert g y x k o) y' x') k' ↔
      keyIn (bucketAt g y' x') k' ∨ (y' = y ∧ x' = x ∧ k = k') := by
  by_cases hhit : y' = y ∧ x' = x
  · obtain ⟨rfl, rfl⟩ := hhit
    rw [bucketAt_gridInsert_self _ _ hy hx, keyIn_insertKV]
    tauto
  · rw [bucketAt_gridInsert_ne _ _ (by tauto)]
    tauto

/-- Exact object count after a spawn batch: the store grows by the batch
size exactly when no spawned key collides — neither with a key already in
its target bucket nor with an earlier spawn of the batch that lands in
the same bucket. -/
theorem totalCount_spawn_iff {cfg : Cfg} (hrows : 1 ≤ cfg.rows) :
    ∀ (l : List Spawn) (g : Grid), WF cfg g → (∀ s ∈ l, inWorld s.pos) →
      (totalCount (spawn_objects cfg g l) = totalCount g + l.length ↔
        (∀ s ∈ l, freshAt cfg g s) ∧ l.Pairwise (sameCellDistinctKeys cfg))
  | [], g, _, _ => by simp [spawn_objects]
  | s :: l, g, hWF, hin => by
    have hpos := hin s (by simp)
    obtain ⟨hp1, hp2, hp3, hp4⟩ := hpos
    obtain ⟨hcx, hcy⟩ := cell_by_pos_lt hrows hp1 hp2 hp3 hp4
    have hy : (cell_by_pos cfg s.pos).2 < g.length := by rw [hWF.1]; exact hcy
    have hx : (cell_by_pos cfg s.pos).1 <
        (g.getD (cell_by_pos cfg s.pos).2 []).length := by
      rw [row_length_of_WF hWF hy]; exact hcx
    have hcount := totalCount_gridInsert (k := s.key) (o := ⟨s.pos, s.color⟩) hy hx
    have hIH := totalCount_spawn_iff hrows l
      (gridInsert g (cell_by_pos cfg s.pos).2 (cell_by_pos cfg s.pos).1 s.key
        ⟨s.pos, s.color⟩)
      (WF_gridInsert hWF) (fun s' hs' => hin s' (by simp [hs']))
    rw [spawn_objects_cons]
    by_cases hfresh : keyIn
        (bucketAt g (cell_by_pos cfg s.pos).2 (cell_by_pos cfg s.pos).1) s.key
    · rw [if_pos hfresh] at hcount
      constructor
      · intro hLHS
        exfalso
        have hle := totalCount_spawn_le cfg l
          (gridInsert g (cell_by_pos cfg s.pos).2 (cell_by_pos cfg s.pos).1 s.key
            ⟨s.pos, s.color⟩)
        rw [hcount] at hle
        rw [hLHS] at hle
        simp only [List.length_cons] at hle
        omega
      · rintro ⟨hfr, -⟩
        exact absurd hfresh (hfr s (by simp))
    · rw [if_neg hfresh] at hcount
      have hLHSiff : totalCount (spawn_objects cfg
          (gridInsert g (cell_by_pos cfg s.pos).2 (cell_by_pos cfg s.pos).1 s.key
            ⟨s.pos, s.color⟩) l) = totalCount g + (s :: l).length ↔
          (∀ s' ∈ l, freshAt cfg
            (gridInsert g (cell_by_pos cfg s.pos).2 (cell_by_pos cfg s.pos).1 s.key
              ⟨s.pos, s.color⟩) s') ∧ l.Pairwise (sameCellDistinctKeys cfg) := by
        rw [← hIH, hcount]
        simp only [List.length_cons]
        omega
      rw [hLHSiff]
      have hstep : ∀ s' : Spawn, freshAt cfg
          (gridInsert g (cell_by_pos cfg s.pos).2 (cell_by_pos cfg s.pos).1 s.key
            ⟨s.pos, s.color⟩) s' ↔
          freshAt cfg g s' ∧ sameCellDistinctKeys cfg s s' := by
        intro s'
        unfold freshAt sameCellDistinctKeys
        rw [keyIn_bucketAt_gridInsert hy hx]
        constructor
        · intro h
          refine ⟨fun hk => h (Or.inl hk), fun hcell hkey => h (Or.inr ?_)⟩
          rw [← hcell]
          exact ⟨rfl, rfl, hkey⟩
        · rintro ⟨hfr, hsk⟩ (h | ⟨hyy, hxx, hkk⟩)
          · exact hfr h
          · exact hsk (by rw [Prod.ext_iff]; exact ⟨hxx.symm, hyy.symm⟩) hkk
      rw [List.pairwise_cons]
      constructor
      · rintro ⟨hall, hpw⟩
        refine ⟨?_, ?_, hpw⟩
        · rintro s' hs'
          rcases List.mem_cons.1 hs' with rfl | hs'
          · exact hfresh
          · exact ((hstep s').1 (hall s' hs')).1
        · exact fun s' hs' => ((hstep s').1 (hall s' hs')).2
      · rintro ⟨hfr, hhead, hpw⟩
        exact ⟨fun s' hs' => (hstep s').2
          ⟨hfr s' (by simp [hs']), hhead s' hs'⟩, hpw⟩

/-! ## A store whose only object carries the queried id: every scan is
empty, so the ring loop never exits -/

theorem scan_layer_empty_of_lonely {cfg : Cfg} {cx cy id : ℕ} {g : Grid}
    (hcx : cx ≤ cfg.cols - 1)
    (H1 : ∀ y x, ¬ (y = cy ∧ x = cx) → bucketAt g y x = [])
    (H2 : ∀ e ∈ bucketAt g cy cx, e.1 = id) :
    ∀ L, scan_layer cfg (cx, cy) id g L = [] := by
  intro L
  have hfilter : (bucketAt g cy cx).filter (fun e => e.1 ≠ id) = [] := by
    rw [List.filter_eq_nil_iff]
    intro e he
    simpa using H2 e he
  simp only [scan_layer]
  have htop : (if L ≤ cy then
      (rangeIncl (cx - L) (min (cx + L) (cfg.cols - 1))).flatMap
        (fun x => ((bucketAt g (cy - L) x).filter
          (fun e => e.1 ≠ id)).map (fun e => e.2))
    else []) = [] := by
    by_cases hc : L ≤ cy
    · rw [if_pos hc, List.flatMap_eq_nil_iff]
      intro x hx
      rcases Nat.eq_zero_or_pos L with rfl | hL
      · have hxeq : x = cx := by
          have := mem_rangeIncl.1 hx
          omega
        subst hxeq
        rw [Nat.sub_zero, hfilter]
        rfl
      · rw [H1 (cy - L) x (by omega)]
        rfl
    · rw [if_neg hc]
  have hbot : (if 0 < L ∧ cy + L ≤ cfg.rows - 1 then
      (rangeIncl (cx - L) (min (cx + L) (cfg.cols - 1))).flatMap
        (fun x => (bucketAt g (cy + L) x).map (fun e => e.2))
    else []) = [] := by
    by_cases hc : 0 < L ∧ cy + L ≤ cfg.rows - 1
    · rw [if_pos hc, List.flatMap_eq_nil_iff]
      intro x hx
      rw [H1 (cy + L) x (by omega)]
      rfl
    · rw [if_neg hc]
  have hleft : (if 0 < L ∧ L ≤ cx then
      (rangeIncl (cy - (L - 1)) (min (cy + (L - 1)) (cfg.rows - 1))).flatMap
        (fun y => (bucketAt g y (cx - L)).map (fun e => e.2))
    else []) = [] := by
    by_cases hc : 0 < L ∧ L ≤ cx
    · rw [if_pos hc, List.flatMap_eq_nil_iff]
      intro y hy
      rw [H1 y (cx - L) (by omega)]
      rfl
    · rw [if_neg hc]
  have hright : (if 0 < L ∧ cx + L ≤ cfg.cols - 1 then
      (rangeIncl (cy - (L - 1)) (min (cy + (L - 1)) (cfg.rows - 1))).flatMap
        (fun y => (bucketAt g y (cx + L)).map (fun e => e.2))
    else []) = [] := by
    by_cases hc : 0 < L ∧ cx + L ≤ cfg.cols - 1
    · rw [if_pos hc, List.flatMap_eq_nil_iff]
      intro y hy
      rw [H1 y (cx + L) (by omega)]
      rfl
    · rw [if_neg hc]
  rw [htop, hbot, hleft, hright]
  rfl

/-! ## The final `min_by`: the first minimal-distance candidate wins -/

theorem min_by_fold_stay (p : ℚ × ℚ) (a : Obj) :
    ∀ l : List Obj, (∀ b ∈ l, ¬ dist2 p b.pos < dist2 p a.pos) →
      l.foldl (fun acc x => if dist2 p x.pos < dist2 p acc.pos then x else acc) a = a
  | [], _ => rfl
  | b :: l, h => by
    simp only [List.foldl_cons, if_neg (h b (by simp))]
    exact min_by_fold_stay p a l (fun b' hb' => h b' (by simp [hb']))

theorem min_by_fold_reach (p : ℚ × ℚ) (a : Obj) :
    ∀ (l1 l2 : List Obj) (init : Obj),
      dist2 p a.pos < dist2 p init.pos →
      (∀ b ∈ l1, dist2 p a.pos < dist2 p b.pos) →
      (∀ b ∈ l2, ¬ dist2 p b.pos < dist2 p a.pos) →
      (l1 ++ a :: l2).foldl
        (fun acc x => if dist2 p x.pos < dist2 p acc.pos then x else acc) init = a
  | [], l2, init, hinit, _, hl2 => by
    simp only [List.nil_append, List.foldl_cons, if_pos hinit]
    exact min_by_fold_stay p a l2 hl2
  | b :: l1, l2, init, hinit, hl1, hl2 => by
    simp only [List.cons_append, List.foldl_cons]
    have hb := hl1 b (by simp)
    have hinit' : dist2 p a.pos <
        dist2 p (if dist2 p b.pos < dist2 p init.pos then b else init).pos := by
      split <;> assumption
    exact min_by_fold_reach p a l1 l2 _ hinit'
      (fun b' hb' => hl1 b' (by simp [hb'])) hl2

/-- `min_by` keeps the first element attaining the minimum: if every
element before `a` is strictly farther and no element after `a` is
strictly closer, the fold returns `a`. -/
theorem min_by_dist_first (p : ℚ × ℚ) (a : Obj) (l1 l2 : List Obj)
    (hl1 : ∀ b ∈ l1, dist2 p a.pos < dist2 p b.pos)
    (hl2 : ∀ b ∈ l2, ¬ dist2 p b.pos < dist2 p a.pos) :
    min_by_dist p (l1 ++ a :: l2) = some a := by
  cases l1 with
  | nil =>
    simp only [List.nil_append, min_by_dist]
    rw [min_by_fold_stay p a l2 hl2]
  | cons b l1 =>
    simp only [List.cons_append, min_by_dist]
    rw [min_by_fold_reach p a l1 l2 b (hl1 b (by simp))
      (fun b' hb' => hl1 b' (by simp [hb'])) hl2]

/-! ## Bridge: the computable floor helpers equal the real-number floors

These lemmas certify that `floorSubSqrtDiv` / `floorAddSqrtDiv` compute
exactly `⌊(a ∓ √q)/c⌋`, i.e. that the model's bounding box is the one
the source computes with a real square root. -/

theorem babylon_pos (q : ℚ) (hq : 0 ≤ q) : ∀ n, 0 < babylon q n
  | 0 => by
    unfold babylon
    linarith
  | n + 1 => by
    have h := babylon_pos q hq n
    unfold babylon
    have hdiv : 0 ≤ q / babylon q n := by positivity
    linarith

theorem sqrt_le_babylon (q : ℚ) (hq : 0 ≤ q) :
    ∀ n, Real.sqrt (q : ℝ) ≤ ((babylon q n : ℚ) : ℝ)
  | 0 => by
    have h1 := Real.sq_sqrt (show (0 : ℝ) ≤ (q : ℝ) by exact_mod_cast hq)
    have h2 := Real.sqrt_nonneg (q : ℝ)
    unfold babylon
    push_cast
    nlinarith [sq_nonneg (Real.sqrt (q : ℝ) - 1)]
  | n + 1 => by
    have hpos : (0 : ℝ) < ((babylon q n : ℚ) : ℝ) := by
      exact_mod_cast babylon_pos q hq n
    have h1 := Real.sq_sqrt (show (0 : ℝ) ≤ (q : ℝ) by exact_mod_cast hq)
    have h2 := Real.sqrt_nonneg (q : ℝ)
    unfold babylon
    push_cast
    have hd : (q : ℝ) / ((babylon q n : ℚ) : ℝ) * ((babylon q n : ℚ) : ℝ) =
        (q : ℝ) := div_mul_cancel₀ _ (ne_of_gt hpos)
    nlinarith [hd, sq_nonneg (((babylon q n : ℚ) : ℝ) - Real.sqrt (q : ℝ)),
      hpos, h1, h2]

theorem sqrt_le_sqrtUB (q : ℚ) (hq : 0 ≤ q) :
    Real.sqrt (q : ℝ) ≤ ((sqrtUB q : ℚ) : ℝ) := by
  unfold sqrtUB
  exact sqrt_le_babylon q hq 12

theorem sqrtLeRatB_true_iff {q b : ℚ} (hq : 0 ≤ q) :
    sqrtLeRatB q b = true ↔ Real.sqrt (q : ℝ) ≤ (b : ℝ) := by
  have hq' : (0 : ℝ) ≤ (q : ℝ) := by exact_mod_cast hq
  unfold sqrtLeRatB
  rw [Bool.and_eq_true, decide_eq_true_iff, decide_eq_true_iff]
  constructor
  · rintro ⟨hb, hqb⟩
    have hb' : (0 : ℝ) ≤ (b : ℝ) := by exact_mod_cast hb
    have hqb' : (q : ℝ) ≤ (b : ℝ) ^ 2 := by
      have : (q : ℝ) ≤ (b : ℝ) * (b : ℝ) := by exact_mod_cast hqb
      nlinarith
    calc Real.sqrt (q : ℝ) ≤ Real.sqrt ((b : ℝ) ^ 2) := Real.sqrt_le_sqrt hqb'
      _ = (b : ℝ) := Real.sqrt_sq hb'
  · intro h
    have hb' : (0 : ℝ) ≤ (b : ℝ) := le_trans (Real.sqrt_nonneg _) h
    have hsq := Real.sq_sqrt hq'
    refine ⟨by exact_mod_cast hb', ?_⟩
    have : (q : ℝ) ≤ (b : ℝ) * (b : ℝ) := by
      nlinarith [Real.sqrt_nonneg (q : ℝ)]
    exact_mod_cast this

theorem ratLeSqrtB_true_iff {a q : ℚ} (hq : 0 ≤ q) :
    ratLeSqrtB a q = true ↔ (a : ℝ) ≤ Real.sqrt (q : ℝ) := by
  have hq' : (0 : ℝ) ≤ (q : ℝ) := by exact_mod_cast hq
  unfold ratLeSqrtB
  rw [Bool.or_eq_true, decide_eq_true_iff, decide_eq_true_iff]
  constructor
  · rintro (ha | haq)
    · have : (a : ℝ) ≤ 0 := by exact_mod_cast ha
      exact le_trans this (Real.sqrt_nonneg _)
    · rcases le_or_lt a 0 with ha | ha
      · have : (a : ℝ) ≤ 0 := by exact_mod_cast ha
        exact le_trans this (Real.sqrt_nonneg _)
      · have ha' : (0 : ℝ) < (a : ℝ) := by exact_mod_cast ha
        have haq' : (a : ℝ) ^ 2 ≤ (q : ℝ) := by
          have : (a : ℝ) * (a : ℝ) ≤ (q : ℝ) := by exact_mod_cast haq
          nlinarith
        calc (a : ℝ) = Real.sqrt ((a : ℝ) ^ 2) := (Real.sqrt_sq ha'.le).symm
          _ ≤ Real.sqrt (q : ℝ) := Real.sqrt_le_sqrt haq'
  · intro h
    rcases le_or_lt a 0 with ha | ha
    · exact Or.inl ha
    · right
      have ha' : (0 : ℝ) < (a : ℝ) := by exact_mod_cast ha
      have hsq := Real.sq_sqrt hq'
      have : (a : ℝ) * (a : ℝ) ≤ (q : ℝ) := by
        nlinarith [Real.sqrt_nonneg (q : ℝ)]
      exact_mod_cast this

theorem countP_range_eq (m t : ℕ) (p : ℕ → Bool)
    (h : ∀ j, p j = true ↔ j < t) :
    (List.range m).countP p = min t m := by
  induction m with
  | zero => simp
  | succ m ih =>
    rw [List.range_succ, List.countP_append, ih]
    cases hpm : p m with
    | true =>
      have hmt : m < t := (h m).1 hpm
      simp [List.countP_cons, List.countP_nil, hpm]
      omega
    | false =>
      have hmt : ¬ m < t := fun hm => by rw [(h m).2 hm] at hpm; exact Bool.noConfusion hpm
      simp [List.countP_cons, List.countP_nil, hpm]
      omega

theorem rat_floor_div_cast (u c : ℚ) :
    (⌊u / c⌋ : ℤ) = ⌊((u : ℝ)) / ((c : ℝ))⌋ := by
  rw [show ((u : ℝ)) / ((c : ℝ)) = (((u / c : ℚ) : ℝ)) by push_cast; ring]
  rw [Rat.floor_cast]

theorem floorSubSqrtDiv_eq (a q c : ℚ) (hq : 0 ≤ q) (hc : 0 < c) :
    floorSubSqrtDiv a q c = ⌊((a : ℝ) - Real.sqrt (q : ℝ)) / (c : ℝ)⌋ := by
  have hc' : (0 : ℝ) < (c : ℝ) := by exact_mod_cast hc
  have hs0 : (0 : ℝ) ≤ Real.sqrt (q : ℝ) := Real.sqrt_nonneg _
  have hsub := sqrt_le_sqrtUB q hq
  set s : ℝ := Real.sqrt (q : ℝ) with hsdef
  set n : ℤ := ⌊((a : ℝ) - s) / (c : ℝ)⌋ with hndef
  have hlo : ⌊(a - sqrtUB q) / c⌋ ≤ n := by
    rw [rat_floor_div_cast]
    apply Int.floor_le_floor
    gcongr
    push_cast
    linarith
  have hhi : n ≤ ⌊a / c⌋ := by
    rw [rat_floor_div_cast]
    apply Int.floor_le_floor
    gcongr
    linarith
  have hpred : ∀ j : ℕ,
      (sqrtLeRatB q (a - ((⌊(a - sqrtUB q) / c⌋ + 1 + (j : ℤ) : ℤ)) * c) = true) ↔
        j < (n - ⌊(a - sqrtUB q) / c⌋).toNat := by
    intro j
    rw [sqrtLeRatB_true_iff hq]
    have hcast : ((a - ((⌊(a - sqrtUB q) / c⌋ + 1 + (j : ℤ) : ℤ)) * c : ℚ) : ℝ) =
        (a : ℝ) - ((⌊(a - sqrtUB q) / c⌋ + 1 + (j : ℤ) : ℤ) : ℝ) * (c : ℝ) := by
      push_cast
      ring
    rw [hcast]
    constructor
    · intro h
      have hkc : ((⌊(a - sqrtUB q) / c⌋ + 1 + (j : ℤ) : ℤ) : ℝ) * (c : ℝ) ≤
          (a : ℝ) - s := by linarith
      have hdiv : ((⌊(a - sqrtUB q) / c⌋ + 1 + (j : ℤ) : ℤ) : ℝ) ≤
          ((a : ℝ) - s) / (c : ℝ) := by
        rw [le_div_iff hc']
        exact hkc
      have hk_le_n : ⌊(a - sqrtUB q) / c⌋ + 1 + (j : ℤ) ≤ n :=
        Int.le_floor.mpr hdiv
      omega
    · intro hj
      have hk_le_n : ⌊(a - sqrtUB q) / c⌋ + 1 + (j : ℤ) ≤ n := by omega
      have hdiv : ((⌊(a - sqrtUB q) / c⌋ + 1 + (j : ℤ) : ℤ) : ℝ) ≤
          ((a : ℝ) - s) / (c : ℝ) := Int.le_floor.mp hk_le_n
      have := (le_div_iff hc').1 hdiv
      linarith
  have hcount := countP_range_eq ((⌊a / c⌋ - ⌊(a - sqrtUB q) / c⌋).toNat)
    ((n - ⌊(a - sqrtUB q) / c⌋).toNat)
    (fun (j : ℕ) => sqrtLeRatB q (a - ((⌊(a - sqrtUB q) / c⌋ + 1 + (j : ℤ) : ℤ)) * c))
    hpred
  simp only [floorSubSqrtDiv]
  rw [hcount]
  omega

theorem floorAddSqrtDiv_eq (a q c : ℚ) (hq : 0 ≤ q) (hc : 0 < c) :
    floorAddSqrtDiv a q c = ⌊((a : ℝ) + Real.sqrt (q : ℝ)) / (c : ℝ)⌋ := by
  have hc' : (0 : ℝ) < (c : ℝ) := by exact_mod_cast hc
  have hs0 : (0 : ℝ) ≤ Real.sqrt (q : ℝ) := Real.sqrt_nonneg _
  have hsub := sqrt_le_sqrtUB q hq
  set s : ℝ := Real.sqrt (q : ℝ) with hsdef
  set n : ℤ := ⌊((a : ℝ) + s) / (c : ℝ)⌋ with hndef
  have hlo : ⌊a / c⌋ ≤ n := by
    rw [rat_floor_div_cast]
    apply Int.floor_le_floor
    gcongr
    linarith
  have hhi : n ≤ ⌊(a + sqrtUB q) / c⌋ := by
    rw [rat_floor_div_cast]
    apply Int.floor_le_floor
    gcongr
    push_cast
    linarith
  have hpred : ∀ j : ℕ,
      (ratLeSqrtB (((⌊a / c⌋ + 1 + (j : ℤ) : ℤ)) * c - a) q = true) ↔
        j < (n - ⌊a / c⌋).toNat := by
    intro j
    rw [ratLeSqrtB_true_iff hq]
    have hcast : ((((⌊a / c⌋ + 1 + (j : ℤ) : ℤ)) * c - a : ℚ) : ℝ) =
        ((⌊a / c⌋ + 1 + (j : ℤ) : ℤ) : ℝ) * (c : ℝ) - (a : ℝ) := by
      push_cast
      ring
    rw [hcast]
    constructor
    · intro h
      have hkc : ((⌊a / c⌋ + 1 + (j : ℤ) : ℤ) : ℝ) * (c : ℝ) ≤ (a : ℝ) + s := by
        linarith
      have hdiv : ((⌊a / c⌋ + 1 + (j : ℤ) : ℤ) : ℝ) ≤ ((a : ℝ) + s) / (c : ℝ) := by
        rw [le_div_iff hc']
        exact hkc
      have hk_le_n : ⌊a / c⌋ + 1 + (j : ℤ) ≤ n := Int.le_floor.mpr hdiv
      omega
    · intro hj
      have hk_le_n : ⌊a / c⌋ + 1 + (j : ℤ) ≤ n := by omega
      have hdiv : ((⌊a / c⌋ + 1 + (j : ℤ) : ℤ) : ℝ) ≤ ((a : ℝ) + s) / (c : ℝ) :=
        Int.le_floor.mp hk_le_n
      have := (le_div_iff hc').1 hdiv
      linarith
  have hcount := countP_range_eq ((⌊(a + sqrtUB q) / c⌋ - ⌊a / c⌋).toNat)
    ((n - ⌊a / c⌋).toNat)
    (fun (j : ℕ) => ratLeSqrtB (((⌊a / c⌋ + 1 + (j : ℤ) : ℤ)) * c - a) q)
    hpred
  simp only [floorAddSqrtDiv]
  rw [hcount]
  omega

/-! ## Provenance of grid entries, clamping on in-world positions -/

theorem cell_by_pos_eq_clamped {cfg : Cfg} {p : ℚ × ℚ} (hrows : 1 ≤ cfg.rows)
    (hp : inWorld p) : cell_by_pos cfg p = clampedCell cfg p := by
  obtain ⟨h1, h2, h3, h4⟩ := hp
  obtain ⟨hcx, hcy⟩ := cell_by_pos_lt hrows h1 h2 h3 h4
  have hcx' : u64cast (p.1 / cfg.cellW) < cfg.cols := hcx
  have hcy' : u64cast (p.2 / cfg.cellH) < cfg.rows := hcy
  unfold cell_by_pos clampedCell
  rw [Nat.min_eq_left (by omega), Nat.min_eq_left (by omega)]

theorem mem_spawn_entries {cfg : Cfg} (hrows : 1 ≤ cfg.rows) :
    ∀ (l : List Spawn) (g : Grid), WF cfg g → (∀ s ∈ l, inWorld s.pos) →
      ∀ y x k o, (k, o) ∈ bucketAt (spawn_objects cfg g l) y x →
        (k, o) ∈ bucketAt g y x ∨ ∃ s ∈ l, k = s.key ∧ o = ⟨s.pos, s.color⟩
  | [], _, _, _, _, _, _, _, h => Or.inl h
  | s :: l, g, hWF, hin, y, x, k, o, h => by
    rw [spawn_objects_cons] at h
    obtain ⟨hp1, hp2, hp3, hp4⟩ := hin s (by simp)
    obtain ⟨hcx, hcy⟩ := cell_by_pos_lt hrows hp1 hp2 hp3 hp4
    have hy : (cell_by_pos cfg s.pos).2 < g.length := by rw [hWF.1]; exact hcy
    have hx : (cell_by_pos cfg s.pos).1 <
        (g.getD (cell_by_pos cfg s.pos).2 []).length := by
      rw [row_length_of_WF hWF hy]; exact hcx
    rcases mem_spawn_entries hrows l _ (WF_gridInsert hWF)
      (fun s' hs' => hin s' (by simp [hs'])) y x k o h with h' | ⟨s', hs', hk', ho'⟩
    · by_cases hhit : y = (cell_by_pos cfg s.pos).2 ∧ x = (cell_by_pos cfg s.pos).1
      · obtain ⟨rfl, rfl⟩ := hhit
        rw [bucketAt_gridInsert_self _ _ hy hx] at h'
        rcases mem_insertKV h' with h2 | h2
        · exact Or.inl h2
        · exact Or.inr ⟨s, by simp,
            congrArg Prod.fst h2, congrArg Prod.snd h2⟩
      · rw [bucketAt_gridInsert_ne _ _ (by tauto)] at h'
        exact Or.inl h'
    · exact Or.inr ⟨s', by simp [hs'], hk', ho'⟩

theorem lookupKV_insertKV : ∀ (l : List (ℕ × Obj)) (k : ℕ) (o : Obj),
    keyIn l k → lookupKV (insertKV l k o) k = some o
  | [], k, o, h => absurd h (by simp [keyIn])
  | e :: l, k, o, h => by
    unfold insertKV
    rw [if_pos ((keyIn_iff_any _ _).2 h)]
    simp only [List.map_cons]
    by_cases he : e.1 = k
    · rw [if_pos he]
      unfold lookupKV
      rw [List.find?_cons_of_pos _ (by simp)]
      rfl
    · rw [if_neg he]
      have hk' : keyIn l k := by
        obtain ⟨e', he', hk⟩ := h
        rcases List.mem_cons.1 he' with rfl | hmem2
        · exact absurd hk he
        · exact ⟨e', hmem2, hk⟩
      have hrec := lookupKV_insertKV l k o hk'
      unfold insertKV at hrec
      rw [if_pos ((keyIn_iff_any _ _).2 hk')] at hrec
      unfold lookupKV at hrec ⊢
      rw [List.find?_cons_of_neg _ (by simpa using he)]
      exact hrec

/-! ## Claim theorems -/

/-- C3 (counterexample): the ring expansion does NOT stop only when "the
most recently scanned layer added zero new candidates" or "the window
covers the whole grid": on a two-point store it breaks at layer 0, a
layer whose scan itself contributed the (non-zero) candidates, with the
window far from covering the grid.  The loop stops as soon as the
candidate list is non-empty, however many candidates the layer added. -/
theorem C3_stop_rule_counterexample :
    ring_loop cfg9 (3, 2) 1 gD (ringFuel cfg9) 0 [] =
      some (0, [⟨(384, 264), 2⟩]) ∧
    scan_layer cfg9 (3, 2) 1 gD 0 ≠ [] ∧
    ¬ coversGrid cfg9 (3, 2) 0 ∧
    cell_by_pos cfg9 ((420 : ℚ), (300 : ℚ)) = (3, 2) := by
  with_unfolding_all decide

/-- C3 (amended): the ring loop, entered as the source enters it (layer
0, empty accumulator), exits with `(L, acc)` exactly when `L` is the
first layer at which the accumulated candidate list is non-empty (and
the fuel reaches it); `acc` is that list.  There is no other exit. -/
theorem C3_stop_rule_amended (cfg : Cfg) (cell : ℕ × ℕ) (id : ℕ) (g : Grid)
    (fuel L : ℕ) (acc : List Obj) :
    ring_loop cfg cell id g fuel 0 [] = some (L, acc) ↔
      L < fuel ∧ accumLayers cfg cell id g L ≠ [] ∧
      (∀ M < L, accumLayers cfg cell id g M = []) ∧
      acc = accumLayers cfg cell id g L :=
  ring_loop_eq_some_iff cfg cell id g fuel L acc

/-- C3 (witness): the amended stopping rule, instantiated on the
two-point store: the loop stops at layer 0 with that layer's scan. -/
theorem C3_stop_rule_witness :
    ring_loop cfg9 (3, 2) 1 gD (ringFuel cfg9) 0 [] =
      some (0, accumLayers cfg9 (3, 2) 1 gD 0) :=
  (C3_stop_rule_amended cfg9 (3, 2) 1 gD (ringFuel cfg9) 0
    (accumLayers cfg9 (3, 2) 1 gD 0)).2
    (by refine ⟨by with_unfolding_all decide, by with_unfolding_all decide,
      ?_, rfl⟩
        intro M hM
        omega)

/-- C4: on a store holding exactly one point, querying that point never
returns: the ring loop finds no candidate at any layer and has no other
exit, so it spins forever (modelled: `none` for every fuel bound), and
the model's `find_closest` yields `none` by fuel exhaustion — the Rust
function, whose return type `&Object` has no empty value, simply does
not return.  The claim's "returns none rather than not returning" is
exactly what the code fails to do. -/
theorem C4_single_point_diverges :
    (∀ fuel, ring_loop cfg85 (7, 7) 1 gE fuel 0 [] = none) ∧
    find_closest cfg85 1 pE gE = none ∧
    totalCount gE = 1 := by
  have hcell : cell_by_pos cfg85 pE = (7, 7) := by with_unfolding_all decide
  have hgE : gE = gridInsert (emptyGrid cfg85) 7 7 1 ⟨pE, 3⟩ := by
    show spawn_objects cfg85 (emptyGrid cfg85) [⟨1, pE, 3⟩] = _
    rw [spawn_objects_cons, hcell]
    rfl
  have h7len : (7 : ℕ) < (emptyGrid cfg85).length := by
    rw [emptyGrid, List.length_replicate]
    with_unfolding_all decide
  have h7row : (7 : ℕ) < ((emptyGrid cfg85).getD 7 []).length := by
    rw [emptyGrid, getD_replicate_self]
    rw [if_pos (by with_unfolding_all decide)]
    rw [List.length_replicate]
    with_unfolding_all decide
  have H1 : ∀ y x, ¬ (y = 7 ∧ x = 7) → bucketAt gE y x = [] := by
    intro y x hne
    rw [hgE, bucketAt_gridInsert_ne _ _ (by tauto), bucketAt_emptyGrid]
  have hb77 : bucketAt gE 7 7 = [(1, ⟨pE, 3⟩)] := by
    rw [hgE, bucketAt_gridInsert_self _ _ h7len h7row, bucketAt_emptyGrid]
    rfl
  have H2 : ∀ e ∈ bucketAt gE 7 7, e.1 = 1 := by
    rw [hb77]
    intro e he
    rw [List.mem_singleton.1 he]
  have hall : ∀ L, scan_layer cfg85 (7, 7) 1 gE L = [] :=
    scan_layer_empty_of_lonely (by with_unfolding_all decide) H1 H2
  have hnone : ∀ fuel ℓ, ring_loop cfg85 (7, 7) 1 gE fuel ℓ [] = none :=
    ring_loop_none_of_forall_empty cfg85 (7, 7) 1 gE hall
  refine ⟨fun fuel => hnone fuel 0, ?_, ?_⟩
  · simp only [find_closest]
    rw [hcell, hnone (ringFuel cfg85) 0]
  · rw [hgE, totalCount_gridInsert h7len h7row, totalCount_emptyGrid,
      bucketAt_emptyGrid]
    rw [if_neg (by simp [keyIn])]

/-- C4 (witness): the divergence statement applied at a concrete fuel
bound: even with fuel for the whole grid and beyond, the loop on the
one-point store produces nothing. -/
theorem C4_single_point_diverges_witness :
    ring_loop cfg85 (7, 7) 1 gE 500 0 [] = none :=
  C4_single_point_diverges.1 500

/-- C5 (counterexample): the position-to-cell map does NOT clamp: the
world's far corner (1920, 1080) maps to (151, 85) on the source's own
configuration, one past the last valid column (150) and row (84) — the
grid access `objects[85][151]` would be out of range. -/
theorem C5_far_corner_out_of_range :
    cell_by_pos cfg85 ((1920 : ℚ), (1080 : ℚ)) = (151, 85) ∧
    cfg85.cols - 1 = 150 ∧ cfg85.rows - 1 = 84 ∧
    ¬ (cell_by_pos cfg85 ((1920 : ℚ), (1080 : ℚ))).1 < cfg85.cols ∧
    ¬ (cell_by_pos cfg85 ((1920 : ℚ), (1080 : ℚ))).2 < cfg85.rows := by
  with_unfolding_all decide

/-- C5 (amended): for every position strictly inside the world rectangle
`[0, W) × [0, H)` — including positions exactly on interior cell edges —
the cell map lands in range, for every row-count configuration; spawn
only generates such positions, so the accesses the program actually
makes stay in range.  The world's far corner itself is out of range
(see the counterexample): the source clamps nothing. -/
theorem C5_in_world_in_range (cfg : Cfg) (p : ℚ × ℚ) (hrows : 1 ≤ cfg.rows)
    (hp : inWorld p) :
    (cell_by_pos cfg p).1 < cfg.cols ∧ (cell_by_pos cfg p).2 < cfg.rows := by
  obtain ⟨h1, h2, h3, h4⟩ := hp
  exact cell_by_pos_lt hrows h1 h2 h3 h4

/-- C5 (witness): a position exactly on an interior cell edge of the
source's own configuration maps in range. -/
theorem C5_in_world_in_range_witness :
    (cell_by_pos cfg85 (3 * cfg85.cellW, 1079)).1 < cfg85.cols ∧
    (cell_by_pos cfg85 (3 * cfg85.cellW, 1079)).2 < cfg85.rows :=
  C5_in_world_in_range cfg85 (3 * cfg85.cellW, 1079)
    (by with_unfolding_all decide) (by with_unfolding_all decide)

/-- C6: if the grid holds any object keyed differently from the query,
the search terminates — the ring loop exits within the model's fuel and
`find_closest` returns a result — and the loop has no exit path other
than the candidate list becoming non-empty. -/
theorem C6_ring_loop_terminates (cfg : Cfg) (g : Grid) (id y x k : ℕ)
    (o : Obj) (p : ℚ × ℚ) (hrows : 1 ≤ cfg.rows) (hWF : WF cfg g)
    (hp : inWorld p) (hmem : (k, o) ∈ bucketAt g y x) (hk : k ≠ id) :
    (find_closest cfg id p g).isSome ∧
    ∀ fuel layer acc L out,
      ring_loop cfg (cell_by_pos cfg p) id g fuel layer acc = some (L, out) →
        out ≠ [] := by
  obtain ⟨h1, h2, h3, h4⟩ := hp
  obtain ⟨hcx, hcy⟩ := cell_by_pos_lt hrows h1 h2 h3 h4
  obtain ⟨L, acc, hsome⟩ := ring_loop_exits hWF hmem hk hcx hcy
  exact ⟨find_closest_isSome_of_ring_some hsome,
    fun fuel layer acc' L' out h =>
      ring_loop_out_ne_nil cfg (cell_by_pos cfg p) id g fuel layer acc'
        out L' h⟩

/-- C6 (witness): on the two-point store, the query for the first point
produces a result. -/
theorem C6_ring_loop_terminates_witness :
    (find_closest cfg9 1 ((420 : ℚ), (300 : ℚ)) gD).isSome :=
  (C6_ring_loop_terminates cfg9 gD 1 2 3 2 ⟨((384 : ℚ), (264 : ℚ)), 2⟩
    ((420 : ℚ), (300 : ℚ))
    (by with_unfolding_all decide)
    (by with_unfolding_all decide)
    (by with_unfolding_all decide)
    (by with_unfolding_all decide)
    (by with_unfolding_all decide)).1

set_option maxRecDepth 4000 in
/-- C1: the nearest-neighbor contract fails on the code.  In a store of
three points, the query point P sits alone in its cell, the ring search
finds only the diagonal decoy Q0, and the verification pass skips the
cell of the strictly closer point R (its column is inside the scanned
window, its row outside; the source requires both outside), so
`find_closest` returns Q0 even though distance(P,R) < distance(P,Q0).
Distances are compared squared (the square root is monotone). -/
theorem C1_find_closest_not_nearest :
    (1, (⟨pA, 7⟩ : Obj)) ∈ bucketAt gA 4 4 ∧
    (2, (⟨qA, 8⟩ : Obj)) ∈ bucketAt gA 5 5 ∧
    (3, (⟨rA, 9⟩ : Obj)) ∈ bucketAt gA 2 4 ∧
    totalCount gA = 3 ∧
    find_closest cfg9 1 pA gA = some ⟨qA, 8⟩ ∧
    dist2 pA rA < dist2 pA qA ∧
    (⟨rA, 9⟩ : Obj) ≠ ⟨qA, 8⟩ ∧ rA ≠ pA := by
  with_unfolding_all decide

set_option maxRecDepth 4000 in
/-- C2: the verification pass does NOT rescan every bounding-box cell
that the ring expansion missed.  At the refuting store, the loop stops
at layer 1 (window columns and rows 5..7), the bounding box of the
provisional radius spans rows 4..8, and the unscanned cell (column 6,
row 4) — inside the box, column inside the window, row outside — holds
the point R; the source's condition (both coordinates outside the
window) skips it, so R is never merged and the final minimum misses the
closer point. -/
theorem C2_verification_pass_skips_cell :
    ring_loop cfg9 (6, 6) 1 gB (ringFuel cfg9) 0 [] = some (1, [⟨qB, 5⟩]) ∧
    cell_by_pos cfg9 pB = (6, 6) ∧
    (3, (⟨rB, 6⟩ : Obj)) ∈ bucketAt gB 4 6 ∧
    (bbox cfg9 pB (dist2 pB qB)).1 ≤ 6 ∧ 6 ≤ (bbox cfg9 pB (dist2 pB qB)).2.1 ∧
    (bbox cfg9 pB (dist2 pB qB)).2.2.1 ≤ 4 ∧
    4 ≤ (bbox cfg9 pB (dist2 pB qB)).2.2.2 ∧
    ¬ memRange (6 - 1) (min (6 + 1) (cfg9.rows - 1)) 4 ∧
    (⟨rB, 6⟩ : Obj) ∉ verify_adds cfg9 (6, 6) 1 gB (bbox cfg9 pB (dist2 pB qB)) ∧
    find_closest cfg9 1 pB gB = some ⟨qB, 5⟩ ∧
    dist2 pB rB < dist2 pB qB := by
  with_unfolding_all decide

/-- C7: after spawning into the empty grid, every stored entry sits in
exactly one bucket, the bucket of `cell_by_pos` on its position, which
on in-world positions coincides with the clamped floor of the spec;
queries are read-only by construction (the search takes the grid
immutably and returns no state), and reset empties every bucket. -/
theorem C7_spawn_placement (cfg : Cfg) (spawns : List Spawn)
    (hrows : 1 ≤ cfg.rows) (hin : ∀ s ∈ spawns, inWorld s.pos) :
    (∀ y x k o,
      (k, o) ∈ bucketAt (spawn_objects cfg (emptyGrid cfg) spawns) y x →
        (x, y) = cell_by_pos cfg o.pos ∧
        cell_by_pos cfg o.pos = clampedCell cfg o.pos) ∧
    (∀ y x y' x' k o,
      (k, o) ∈ bucketAt (spawn_objects cfg (emptyGrid cfg) spawns) y x →
      (k, o) ∈ bucketAt (spawn_objects cfg (emptyGrid cfg) spawns) y' x' →
        y = y' ∧ x = x') ∧
    (∀ y x,
      bucketAt (reset_objects (spawn_objects cfg (emptyGrid cfg) spawns)) y x
        = []) := by
  have hpl := Placed_spawn_objects hrows spawns (emptyGrid cfg)
    (WF_emptyGrid cfg) (Placed_emptyGrid cfg) hin
  have hent := mem_spawn_entries hrows spawns (emptyGrid cfg)
    (WF_emptyGrid cfg) hin
  refine ⟨?_, ?_, fun y x => bucketAt_reset _ y x⟩
  · intro y x k o hmem
    refine ⟨hpl y x k o hmem, ?_⟩
    rcases hent y x k o hmem with h | ⟨s, hs, -, rfl⟩
    · rw [bucketAt_emptyGrid] at h
      simp at h
    · exact cell_by_pos_eq_clamped hrows (hin s hs)
  · intro y x y' x' k o h h'
    have e12 := (hpl y x k o h).trans (hpl y' x' k o h').symm
    exact ⟨congrArg Prod.snd e12, congrArg Prod.fst e12⟩

/-- C7 (witness): on the concrete three-point spawn, the entry keyed 1
sits in bucket (row 1, column 1), which is the cell of its position. -/
theorem C7_spawn_placement_witness :
    (1, 1) = cell_by_pos cfg9 (⟨((180 : ℚ), (180 : ℚ)), 1⟩ : Obj).pos ∧
    cell_by_pos cfg9 (⟨((180 : ℚ), (180 : ℚ)), 1⟩ : Obj).pos =
      clampedCell cfg9 (⟨((180 : ℚ), (180 : ℚ)), 1⟩ : Obj).pos :=
  (C7_spawn_placement cfg9 spawnsC (by with_unfolding_all decide)
    (by with_unfolding_all decide)).1 1 1 1 ⟨((180 : ℚ), (180 : ℚ)), 1⟩
    (by with_unfolding_all decide)

set_option maxRecDepth 4000 in
/-- C8: grid resolution is NOT semantically inert.  One fixed three-point
set with pairwise distinct distances, spawned identically on the 9-row
and on the 5-row grid, yields different results for the same query: the
9-row grid returns the decoy (the verification-pass defect of C1/C2
bites), the 5-row grid — where all three points share one cell — returns
the true nearest. -/
theorem C8_resolution_changes_result :
    dist2 (180, 180) (348, 348) ≠ dist2 (180, 180) (180, 372) ∧
    dist2 (180, 180) (348, 348) ≠ dist2 (348, 348) (180, 372) ∧
    dist2 (180, 180) (180, 372) ≠ dist2 (348, 348) (180, 372) ∧
    find_closest cfg9 1 ((180 : ℚ), (180 : ℚ)) gC9 = some ⟨(348, 348), 2⟩ ∧
    find_closest cfgRows5 1 ((180 : ℚ), (180 : ℚ)) gC5 = some ⟨(180, 372), 3⟩ ∧
    (⟨(348, 348), 2⟩ : Obj) ≠ ⟨(180, 372), 3⟩ := by
  with_unfolding_all decide

set_option maxRecDepth 4000 in
/-- C9 (counterexample): no explicit tie-break rule exists — the result
depends on incidental bucket iteration order.  Two spawn sequences with
the same multiset of (key, position, color) triples — only the insertion
order of the two tied candidates differs — produce stores whose buckets
hold the same entries in different order, and the same query returns a
different point on each. -/
theorem C9_tie_break_depends_on_order :
    (sF1 : Multiset Spawn) = (sF2 : Multiset Spawn) ∧
    dist2 pF aF = dist2 pF bF ∧
    find_closest cfg9 1 pF (spawn_objects cfg9 (emptyGrid cfg9) sF1) =
      some ⟨aF, 2⟩ ∧
    find_closest cfg9 1 pF (spawn_objects cfg9 (emptyGrid cfg9) sF2) =
      some ⟨bF, 3⟩ ∧
    (⟨aF, 2⟩ : Obj) ≠ ⟨bF, 3⟩ := by
  with_unfolding_all decide

/-- C9 (amended): the tie-break the code actually implements: `min_by`
keeps the first element attaining the minimum in iteration order — among
equidistant nearest candidates, the first one encountered wins. -/
theorem C9_first_minimum_wins (p : ℚ × ℚ) (a : Obj) (l1 l2 : List Obj)
    (hl1 : ∀ b ∈ l1, dist2 p a.pos < dist2 p b.pos)
    (hl2 : ∀ b ∈ l2, ¬ dist2 p b.pos < dist2 p a.pos) :
    min_by_dist p (l1 ++ a :: l2) = some a :=
  min_by_dist_first p a l1 l2 hl1 hl2

/-- C9 (witness): the first of two equidistant candidates wins. -/
theorem C9_first_minimum_wins_witness :
    min_by_dist (0, 0)
      ([⟨((2 : ℚ), (0 : ℚ)), 1⟩] ++ (⟨((1 : ℚ), (0 : ℚ)), 0⟩ : Obj) ::
        [⟨((1 : ℚ), (0 : ℚ)), 2⟩]) = some ⟨((1 : ℚ), (0 : ℚ)), 0⟩ :=
  C9_first_minimum_wins (0, 0) ⟨((1 : ℚ), (0 : ℚ)), 0⟩ _ _
    (by with_unfolding_all decide) (by with_unfolding_all decide)

/-- C10: `spawn_objects` keys each inserted object by its (modelled)
`Instant::now()` timestamp; inserting an existing key into a bucket
silently replaces that entry (same bucket size, new object under the
key).  Consequently, spawning a batch into the empty grid yields exactly
`batch length` stored objects iff every two spawns that land in the same
bucket carry distinct keys. -/
theorem C10_spawn_count (cfg : Cfg) (spawns : List Spawn)
    (hrows : 1 ≤ cfg.rows) (hin : ∀ s ∈ spawns, inWorld s.pos) :
    (∀ (l : List (ℕ × Obj)) (k : ℕ) (o : Obj), keyIn l k →
      (insertKV l k o).length = l.length ∧
      lookupKV (insertKV l k o) k = some o) ∧
    (totalCount (spawn_objects cfg (emptyGrid cfg) spawns) = spawns.length ↔
      spawns.Pairwise (sameCellDistinctKeys cfg)) := by
  refine ⟨fun l k o hk =>
    ⟨by rw [length_insertKV, if_pos hk], lookupKV_insertKV l k o hk⟩, ?_⟩
  have h := totalCount_spawn_iff hrows spawns (emptyGrid cfg)
    (WF_emptyGrid cfg) hin
  rw [totalCount_emptyGrid, Nat.zero_add] at h
  rw [h]
  constructor
  · rintro ⟨-, hpw⟩
    exact hpw
  · intro hpw
    refine ⟨fun s hs => ?_, hpw⟩
    unfold freshAt
    rw [bucketAt_emptyGrid]
    simp [keyIn]

/-- C10 (witness): on the concrete three-point spawn (three distinct
keys), the count equation is equivalent to the pairwise condition. -/
theorem C10_spawn_count_witness :
    totalCount gC9 = spawnsC.length ↔
      spawnsC.Pairwise (sameCellDistinctKeys cfg9) :=
  (C10_spawn_count cfg9 spawnsC (by with_unfolding_all decide)
    (by with_unfolding_all decide)).2

end SpatialHashing
